import Mathlib

/-!
Shallow embedding of the ingestion/retrieval pipeline implemented in
src/backend/lambda/rag_pipeline/lambda_function.py, together with theorems
settling the specification claims about it.

Modelling conventions:
* Python `str` is modelled as `List Char` (a Python string is a sequence of
  code points).
* Python numbers are modelled as `Int`/`Nat`, and the float arithmetic of the
  reranker as exact rational arithmetic over `ℚ`.
* Python code that can raise is modelled with `Except PyErr`.
* Wall-clock readings (`time.time() - start_time`) and the results of external
  network calls (PDF fetch, embedding service, vector store) are supplied as
  explicit oracle inputs, one per paper, so the control flow of the ingestion
  loop is a pure function of its inputs.
-/

namespace Rag

/-- Python `\s` whitespace (ASCII range, which is what the regular expression
`re.sub(r"\s+", " ", text)` matches on the inputs considered here). -/
def isWS (c : Char) : Bool :=
  c = ' ' || c = '\t' || c = '\n' || c = '\r' || c = '\x0b' || c = '\x0c'

/-- `re.sub(r"\s+", " ", text)`: every maximal run of whitespace characters is
replaced by a single space.  The Boolean argument records whether the previous
character was whitespace. -/
def collapseAux : Bool → List Char → List Char
  | _, [] => []
  | prev, c :: rest =>
    if isWS c then
      if prev then collapseAux true rest else ' ' :: collapseAux true rest
    else c :: collapseAux false rest

/-- Drop trailing whitespace. -/
def dropTrailWS (l : List Char) : List Char :=
  (l.reverse.dropWhile isWS).reverse

/-- Python `str.strip()`: drop leading and trailing whitespace. -/
def pyStrip (l : List Char) : List Char :=
  dropTrailWS (l.dropWhile isWS)

/-- `clean_text` (lambda_function.py lines 92-97): collapse whitespace runs to
one space, strip, then delete NUL characters. -/
def clean_text (l : List Char) : List Char :=
  (pyStrip (collapseAux false l)).filter (fun c => c ≠ '\x00')

/-- ASCII lower-casing of one character (Python `str.lower()`; all inputs the
claims exercise are ASCII). -/
def lowerChar (c : Char) : Char :=
  if 'A' ≤ c ∧ c ≤ 'Z' then Char.ofNat (c.toNat + 32) else c

/-- Python `str.lower()` (ASCII). -/
def pyLower (l : List Char) : List Char := l.map lowerChar

/-- ASCII upper-casing of one character (Python `str.upper()`). -/
def upperChar (c : Char) : Char :=
  if 'a' ≤ c ∧ c ≤ 'z' then Char.ofNat (c.toNat - 32) else c

/-- Python `str.upper()` (ASCII). -/
def pyUpper (l : List Char) : List Char := l.map upperChar

/-- Python `text.split(sep)` for a one-character separator (note:
`"".split(sep) == [""]`, and adjacent separators produce empty words). -/
def splitChar (sep : Char) : List Char → List (List Char)
  | [] => [[]]
  | c :: rest =>
    match splitChar sep rest with
    | [] => [[]]
    | w :: ws => if c = sep then [] :: w :: ws else (c :: w) :: ws

/-- Python `text.split(" ")`. -/
def splitSp : List Char → List (List Char) := splitChar ' '

/-- Python `" ".join(words)`. -/
def joinSp : List (List Char) → List Char
  | [] => []
  | [w] => w
  | w :: ws => w ++ ' ' :: joinSp ws

/-- Regular-expression word character `\w` = `[a-zA-Z0-9_]`, used by the `\b`
boundaries of the heading patterns. -/
def isWordChar (c : Char) : Bool :=
  ('a' ≤ c && c ≤ 'z') || ('A' ≤ c && c ≤ 'Z') || ('0' ≤ c && c ≤ '9') || c = '_'

/-- A loosely-typed Python value as it occurs in the raw-record fields the
pipeline reads: integers, strings, booleans.  An absent key / `None` is
modelled by `Option PyV = none` at the use site. -/
inductive PyV
  | pint (n : ℤ)
  | pstr (s : List Char)
  | pbool (b : Bool)
deriving DecidableEq, Repr

/-- Python exceptions raised by the embedded code. -/
inductive PyErr
  | valueError (msg : List Char)
  | typeError (msg : List Char)
  | runtimeError (msg : List Char)
deriving DecidableEq, Repr

/-- Python truthiness of a `PyV`. -/
def pyTruthy1 : PyV → Bool
  | .pint n => n ≠ 0
  | .pstr s => s ≠ []
  | .pbool b => b

/-- Python truthiness of an optional value (`None` is falsy). -/
def pyTruthy : Option PyV → Bool
  | none => false
  | some v => pyTruthy1 v

def isDigit (c : Char) : Bool := '0' ≤ c && c ≤ '9'

def digitsToNat (l : List Char) : ℕ :=
  l.foldl (fun acc c => acc * 10 + (c.toNat - 48)) 0

/-- Python `int(s)` on a string: strip whitespace, optional sign, then a
non-empty run of digits; anything else raises `ValueError` (modelled as
`none`).  Digit-group underscores are not modelled (no input here uses
them). -/
def pyIntOfStr (s : List Char) : Option ℤ :=
  let t := pyStrip s
  match t with
  | '+' :: ds => if ds ≠ [] ∧ ds.all isDigit then some (digitsToNat ds) else none
  | '-' :: ds => if ds ≠ [] ∧ ds.all isDigit then some (-(digitsToNat ds : ℤ)) else none
  | ds => if ds ≠ [] ∧ ds.all isDigit then some (digitsToNat ds) else none

def natToChars (n : ℕ) : List Char := Nat.toDigits 10 n

def intToChars (n : ℤ) : List Char :=
  if n < 0 then '-' :: natToChars n.natAbs else natToChars n.natAbs

/-- Python `str(v)`. -/
def pyVToStr : PyV → List Char
  | .pint n => intToChars n
  | .pstr s => s
  | .pbool b => if b then "True".toList else "False".toList

/-- Python `str(v or default)` for an optional field value and a string
default. -/
def strOrDefault (v : Option PyV) (default : List Char) : List Char :=
  if pyTruthy v then pyVToStr (v.getD (.pstr [])) else default

/-- Python `str(v or "")` for an optional field value. -/
def strOrEmpty (v : Option PyV) : List Char := strOrDefault v []

/-- Python `str(a or b or "")`. -/
def strOrChain (a b : Option PyV) : List Char :=
  if pyTruthy a then pyVToStr (a.getD (.pstr [])) else strOrEmpty b

/-- `as_int` (lambda_function.py lines 71-75): `int(value)` with a default on
any exception. -/
def as_int (v : Option PyV) (default : ℤ) : ℤ :=
  match v with
  | none => default
  | some (.pint n) => n
  | some (.pbool b) => if b then 1 else 0
  | some (.pstr s) => (pyIntOfStr s).getD default

/-- `as_bool` (lambda_function.py lines 78-89). -/
def as_bool (v : Option PyV) (default : Bool) : Bool :=
  match v with
  | none => default
  | some (.pbool b) => b
  | some (.pstr s) =>
    let t := pyLower (pyStrip s)
    if t = "1".toList ∨ t = "true".toList ∨ t = "yes".toList ∨ t = "y".toList
        ∨ t = "on".toList then true
    else if t = "0".toList ∨ t = "false".toList ∨ t = "no".toList ∨ t = "n".toList
        ∨ t = "off".toList then false
    else s ≠ []
  | some (.pint n) => n ≠ 0

/-- Python `int(v)` where non-numeric strings raise (`normalize_paper` calls
bare `int(...)` on the `citationCount` field). -/
def pyInt (v : PyV) : Except PyErr ℤ :=
  match v with
  | .pint n => .ok n
  | .pbool b => .ok (if b then 1 else 0)
  | .pstr s =>
    match pyIntOfStr s with
    | some n => .ok n
    | none => .error (.valueError ("invalid literal for int() with base 10: ".toList ++ s))

/-! ### SHA-1 (hashlib.sha1), used to synthesize missing paper ids -/

/-- UTF-8 encoding of one code point. -/
def utf8Bytes1 (n : ℕ) : List ℕ :=
  if n < 0x80 then [n]
  else if n < 0x800 then [0xC0 ||| (n >>> 6), 0x80 ||| (n &&& 0x3F)]
  else if n < 0x10000 then
    [0xE0 ||| (n >>> 12), 0x80 ||| ((n >>> 6) &&& 0x3F), 0x80 ||| (n &&& 0x3F)]
  else
    [0xF0 ||| (n >>> 18), 0x80 ||| ((n >>> 12) &&& 0x3F),
     0x80 ||| ((n >>> 6) &&& 0x3F), 0x80 ||| (n &&& 0x3F)]

/-- UTF-8 encoding of a string (`str.encode("utf-8")`). -/
def utf8Bytes (l : List Char) : List ℕ :=
  (l.map (fun c => utf8Bytes1 c.toNat)).flatten

def M32 : ℕ := 4294967296

/-- 32-bit left rotation. -/
def rotl32 (n x : ℕ) : ℕ := ((x <<< n) % M32) ||| (x >>> (32 - n))

/-- Big-endian 8-byte encoding of a length in bits. -/
def be8 (n : ℕ) : List ℕ :=
  [(n >>> 56) % 256, (n >>> 48) % 256, (n >>> 40) % 256, (n >>> 32) % 256,
   (n >>> 24) % 256, (n >>> 16) % 256, (n >>> 8) % 256, n % 256]

/-- SHA-1 padding: append 0x80, zero bytes to 56 mod 64, then the bit length. -/
def sha1Pad (msg : List ℕ) : List ℕ :=
  let len := msg.length
  let padZeros := (119 - len % 64) % 64
  msg ++ 0x80 :: List.replicate padZeros 0 ++ be8 (len * 8)

/-- Split a byte list into 64-byte blocks (fuel-indexed to stay structural). -/
def chunks64Loop : ℕ → List ℕ → List (List ℕ)
  | 0, _ => []
  | fuel + 1, l => if l = [] then [] else l.take 64 :: chunks64Loop fuel (l.drop 64)

def chunks64 (l : List ℕ) : List (List ℕ) := chunks64Loop l.length l

/-- Big-endian 32-bit words from bytes. -/
def bytesToWords : List ℕ → List ℕ
  | a :: b :: c :: d :: rest => (((a * 256 + b) * 256 + c) * 256 + d) :: bytesToWords rest
  | _ => []

/-- Extend the 16 message words to 80. -/
def sha1ExtendLoop : ℕ → List ℕ → List ℕ
  | 0, ws => ws
  | k + 1, ws =>
    let i := ws.length
    let w := rotl32 1 ((ws.getD (i - 3) 0) ^^^ (ws.getD (i - 8) 0) ^^^
      (ws.getD (i - 14) 0) ^^^ (ws.getD (i - 16) 0))
    sha1ExtendLoop k (ws ++ [w])

/-- One SHA-1 compression round. -/
def sha1Round (st : ℕ × ℕ × ℕ × ℕ × ℕ) (i w : ℕ) : ℕ × ℕ × ℕ × ℕ × ℕ :=
  let (a, b, c, d, e) := st
  let f :=
    if i < 20 then (b &&& c) ||| ((M32 - 1 - b) &&& d)
    else if i < 40 then b ^^^ c ^^^ d
    else if i < 60 then (b &&& c) ||| (b &&& d) ||| (c &&& d)
    else b ^^^ c ^^^ d
  let k :=
    if i < 20 then 0x5A827999
    else if i < 40 then 0x6ED9EBA1
    else if i < 60 then 0x8F1BBCDC
    else 0xCA62C1D6
  let temp := (rotl32 5 a + f + e + k + w) % M32
  (temp, a, rotl32 30 b, c, d)

/-- Process one 64-byte block. -/
def sha1Block (h : ℕ × ℕ × ℕ × ℕ × ℕ) (block : List ℕ) : ℕ × ℕ × ℕ × ℕ × ℕ :=
  let ws := sha1ExtendLoop 64 (bytesToWords block)
  let st := ws.enum.foldl (fun s p => sha1Round s p.1 p.2) h
  let (h0, h1, h2, h3, h4) := h
  let (a, b, c, d, e) := st
  ((h0 + a) % M32, (h1 + b) % M32, (h2 + c) % M32, (h3 + d) % M32, (h4 + e) % M32)

def hexDigit (n : ℕ) : Char := if n < 10 then Char.ofNat (48 + n) else Char.ofNat (87 + n)

def hex8 (n : ℕ) : List Char :=
  (List.range 8).map (fun i => hexDigit ((n >>> (28 - 4 * i)) % 16))

/-- `hashlib.sha1(s.encode("utf-8")).hexdigest()`. -/
def sha1Hex (msg : List Char) : List Char :=
  let bytes := sha1Pad (utf8Bytes msg)
  let st := (chunks64 bytes).foldl sha1Block
    (0x67452301, 0xEFCDAB89, 0x98BADCFE, 0x10325476, 0xC3D2E1F0)
  match st with
  | (h0, h1, h2, h3, h4) => hex8 h0 ++ hex8 h1 ++ hex8 h2 ++ hex8 h3 ++ hex8 h4

set_option maxRecDepth 100000 in
example : sha1Hex "abc".toList = "a9993e364706816aba3e25717850c26c9cd0d89d".toList := by decide

set_option maxRecDepth 100000 in
example : sha1Hex [] = "da39a3ee5e6b4b0d3255bfef95601890afd80709".toList := by decide

example : clean_text "  a \t b\n".toList = "a b".toList := by decide

example : clean_text "a \x00 b".toList = "a  b".toList := by decide

example : splitSp "a  b".toList = ["a".toList, "".toList, "b".toList] := by decide

example : joinSp (splitSp "a  b".toList) = "a  b".toList := by decide

example : pyLower "AbC9".toList = "abc9".toList := by decide

/-! ### Paper normalization (lambda_function.py lines 100-146) -/

/-- One element of a raw `authors` list: either a string or an object with
`name` / `display_name` keys. -/
inductive AuthorItem
  | astr (s : List Char)
  | aobj (name : Option PyV) (displayName : Option PyV)
deriving DecidableEq, Repr

/-- The raw `authors` field: absent/None, a list, or a delimiter-separated
string. -/
inductive RawAuthors
  | absent
  | alist (items : List AuthorItem)
  | astr (s : List Char)
deriving DecidableEq, Repr

/-- `re.split(r";|, and | and ", raw_authors)`: scan left to right, trying the
alternatives in order at each position (the patterns cannot overlap a
previously matched separator, so this scan is exactly `re.split`). -/
def splitAuthScan : List Char → List Char → List (List Char)
  | acc, [] => [acc.reverse]
  | acc, ';' :: rest => acc.reverse :: splitAuthScan [] rest
  | acc, ',' :: ' ' :: 'a' :: 'n' :: 'd' :: ' ' :: rest => acc.reverse :: splitAuthScan [] rest
  | acc, ' ' :: 'a' :: 'n' :: 'd' :: ' ' :: rest => acc.reverse :: splitAuthScan [] rest
  | acc, c :: rest => splitAuthScan (c :: acc) rest

/-- `normalize_authors` (lines 100-118). -/
def normalize_authors : RawAuthors → List (List Char)
  | .absent => []
  | .alist items =>
    items.foldr
      (fun item out =>
        match item with
        | .astr s => let name := clean_text s; if name ≠ [] then name :: out else out
        | .aobj nm disp =>
          let name := clean_text (strOrChain nm disp)
          if name ≠ [] then name :: out else out)
      []
  | .astr s =>
    ((splitAuthScan [] s).map clean_text).filter (fun x => x ≠ [])

/-- A raw loosely-typed record as accepted by `normalize_paper`.  `idField`
models the `"id"` key and `allowPdfExtract2` the `"_allowPdfExtract"` key. -/
structure RawPaper where
  paperId : Option PyV := none
  idField : Option PyV := none
  title : Option PyV := none
  abstract : Option PyV := none
  fullText : Option PyV := none
  authors : RawAuthors := .absent
  year : Option PyV := none
  citationCount : Option PyV := none
  publicationDate : Option PyV := none
  venue : Option PyV := none
  url : Option PyV := none
  pdfUrl : Option PyV := none
  doi : Option PyV := none
  source : Option PyV := none
  allowPdfExtract : Option PyV := none
  allowPdfExtract2 : Option PyV := none
deriving DecidableEq, Repr

/-- The canonical Paper record produced by `normalize_paper`. -/
structure Paper where
  paperId : List Char
  title : List Char
  abstract : List Char
  fullText : List Char
  authors : List (List Char)
  year : Option PyV
  citationCount : ℤ
  publicationDate : List Char
  venue : List Char
  url : List Char
  pdfUrl : List Char
  doi : List Char
  source : List Char
  allowPdfExtract : Bool
deriving DecidableEq, Repr

/-- `doi.replace("https://doi.org/", "", 1)` guarded by `startswith`. -/
def stripDoiScheme (d : List Char) : List Char :=
  if d.take 16 = "https://doi.org/".toList then d.drop 16 else d

/-- The `paper_id` computation of `normalize_paper` (lines 126-129): the
cleaned raw id, or `"paper_"` plus 16 hex characters of
`sha1(f"{title}|{doi}|{year or ''}")` when absent. -/
def normalizePaperId (raw : RawPaper) (title doi : List Char) : List Char :=
  let pid0 := clean_text (strOrChain raw.paperId raw.idField)
  if pid0 = [] then
    let hashSeed := title ++ "|".toList ++ doi ++ "|".toList ++
      (if pyTruthy raw.year then pyVToStr (raw.year.getD (.pstr [])) else [])
    "paper_".toList ++ (sha1Hex hashSeed).take 16
  else pid0

/-- `normalize_paper` (lines 121-146).  The only statement that can raise is
`int(raw.get("citationCount", 0) or 0)` on a non-numeric truthy value, hence
the `Except`. -/
def normalize_paper (raw : RawPaper) : Except PyErr Paper := do
  let title := clean_text (strOrEmpty raw.title)
  let doi := stripDoiScheme (pyLower (clean_text (strOrEmpty raw.doi)))
  let paper_id := normalizePaperId raw title doi
  let ccV := raw.citationCount.getD (.pint 0)
  let cc ← if pyTruthy1 ccV then pyInt ccV else pure 0
  let src := clean_text (strOrEmpty raw.source)
  return {
    paperId := paper_id
    title := title
    abstract := clean_text (strOrEmpty raw.abstract)
    fullText := clean_text (strOrEmpty raw.fullText)
    authors := normalize_authors raw.authors
    year := raw.year
    citationCount := cc
    publicationDate := clean_text (strOrEmpty raw.publicationDate)
    venue := clean_text (strOrEmpty raw.venue)
    url := clean_text (strOrEmpty raw.url)
    pdfUrl := clean_text (strOrEmpty raw.pdfUrl)
    doi := doi
    source := if src = [] then "custom".toList else src
    allowPdfExtract := as_bool raw.allowPdfExtract (as_bool raw.allowPdfExtract2 true)
  }

example :
    normalize_authors (.astr "Ada Lovelace; Alan Turing, and Kurt Godel and Emmy Noether".toList)
      = ["Ada Lovelace".toList, "Alan Turing".toList, "Kurt Godel".toList,
         "Emmy Noether".toList] := by decide

deriving instance DecidableEq for Except

example :
    (normalize_paper { title := some (.pstr "  A  B ".toList),
                       doi := some (.pstr "HTTPS://doi.org/10.1/X".toList) }).map Paper.doi
      = .ok "10.1/x".toList := by decide

/-! ### Merge/dedup engine (lambda_function.py lines 476-514) -/

/-- Python `str.split()` with no argument: split on whitespace runs, no empty
words. -/
def pySplitWsAux : List Char → List Char → List (List Char)
  | acc, [] => if acc = [] then [] else [acc.reverse]
  | acc, c :: rest =>
    if isWS c then
      if acc = [] then pySplitWsAux [] rest else acc.reverse :: pySplitWsAux [] rest
    else pySplitWsAux (c :: acc) rest

def pySplitWs (l : List Char) : List (List Char) := pySplitWsAux [] l

/-- `key_for` inside `merge_papers` (lines 477-486).  The
`hashlib.sha1(json.dumps(p, ...))` fallback fires only when `p["paperId"]` is
falsy; `normalize_paper` always produces a non-empty `paperId`
(`normalize_paper_paperId_ne_nil` below), so that branch is dead on this call
path and the key is `id:` followed by the paper id. -/
def key_for (p : Paper) : List Char :=
  let doi := pyLower (clean_text p.doi)
  if doi ≠ [] then "doi:".toList ++ doi
  else
    let t1 := pyLower (clean_text p.title)
    let t2 := t1.filter (fun c => ('a' ≤ c && c ≤ 'z') || ('0' ≤ c && c ≤ '9') || c = ' ')
    let title := joinSp (pySplitWs t2)
    if title ≠ [] then "title:".toList ++ title
    else "id:".toList ++ p.paperId

/-- `score` inside `merge_papers` (lines 488-492): the scoring tuple
`(has_abstract, has_pdf, citationCount)`. -/
def mergeScore (p : Paper) : ℤ × ℤ × ℤ :=
  ((if p.abstract ≠ [] then 1 else 0), (if p.pdfUrl ≠ [] then 1 else 0), p.citationCount)

/-- Python tuple comparison `score(p) > score(existing)` (lexicographic). -/
def tupleGt (a b : ℤ × ℤ × ℤ) : Bool :=
  decide (b.1 < a.1) ||
    (a.1 == b.1 && (decide (b.2.1 < a.2.1) ||
      (a.2.1 == b.2.1 && decide (b.2.2 < a.2.2))))

/-- In-place update of an insertion-ordered association list (Python dict
assignment to an existing key keeps its position). -/
def updAssoc {α : Type} (k : List Char) (v : α) : List (List Char × α) → List (List Char × α)
  | [] => []
  | (k', v') :: rest => if k' = k then (k', v) :: rest else (k', v') :: updAssoc k v rest

def lookupAssoc {α : Type} (k : List Char) : List (List Char × α) → Option α
  | [] => none
  | (k', v') :: rest => if k' = k then some v' else lookupAssoc k rest

/-- The new record wins: `merged = {**existing, **p}` (every field of `p`
overwrites, so the merge equals `p`), then the longer author list is kept when
both are non-empty (lines 502-506). -/
def winnerMerge (existing p : Paper) : Paper :=
  if existing.authors ≠ [] ∧ p.authors ≠ [] then
    { p with authors :=
        if p.authors.length ≤ existing.authors.length then existing.authors else p.authors }
  else p

def backfillField (existing incoming : List Char) : List Char :=
  if existing = [] ∧ incoming ≠ [] then incoming else existing

/-- The existing record wins: gaps in abstract/pdfUrl/doi/url/venue are
back-filled from the loser, and a longer author list is adopted
(lines 507-512). -/
def loserBackfill (existing p : Paper) : Paper :=
  let e1 := { existing with
    abstract := backfillField existing.abstract p.abstract
    pdfUrl := backfillField existing.pdfUrl p.pdfUrl
    doi := backfillField existing.doi p.doi
    url := backfillField existing.url p.url
    venue := backfillField existing.venue p.venue }
  if e1.authors.length < p.authors.length then { e1 with authors := p.authors } else e1

/-- One iteration of the `for raw in papers` loop of `merge_papers`. -/
def mergeStep (sel : List (List Char × Paper)) (raw : RawPaper) :
    Except PyErr (List (List Char × Paper)) := do
  let p ← normalize_paper raw
  let k := key_for p
  match lookupAssoc k sel with
  | none => return sel ++ [(k, p)]
  | some existing =>
    if tupleGt (mergeScore p) (mergeScore existing) then
      return updAssoc k (winnerMerge existing p) sel
    else
      return updAssoc k (loserBackfill existing p) sel

/-- The `selected` dict after folding the whole input list. -/
def mergeSel : List RawPaper → List (List Char × Paper) →
    Except PyErr (List (List Char × Paper))
  | [], sel => .ok sel
  | r :: rs, sel => do mergeSel rs (← mergeStep sel r)

/-- `merge_papers` (lines 476-514): `list(selected.values())` in insertion
order of first-seen merge keys. -/
def merge_papers (papers : List RawPaper) : Except PyErr (List Paper) :=
  (mergeSel papers []).map (fun sel => sel.map Prod.snd)

/-- `build_metadata_fallback_text` (lines 149-174). -/
def build_metadata_fallback_text (paper : Paper) : List Char :=
  let p1 := (let t := clean_text paper.title
    if t ≠ [] then ["Title: ".toList ++ t ++ ".".toList] else [])
  let auths := paper.authors.filter (fun a => clean_text a ≠ [])
  let p2 := (if auths ≠ [] then
    ["Authors: ".toList ++ List.intercalate ", ".toList (auths.take 6) ++ ".".toList] else [])
  let year := as_int paper.year 0
  let p3 := (if 0 < year then ["Year: ".toList ++ intToChars year ++ ".".toList] else [])
  let p4 := (let v := clean_text paper.venue
    if v ≠ [] then ["Venue: ".toList ++ v ++ ".".toList] else [])
  let p5 := (let s := clean_text paper.source
    if s ≠ [] then ["Source: ".toList ++ s ++ ".".toList] else [])
  let p6 := (let d := clean_text paper.doi
    if d ≠ [] then ["DOI: ".toList ++ d ++ ".".toList] else [])
  let p7 := (let u := clean_text paper.url
    if u ≠ [] then ["URL: ".toList ++ u ++ ".".toList] else [])
  let parts := p1 ++ p2 ++ p3 ++ p4 ++ p5 ++ p6 ++ p7
  let parts := if parts ≠ [] then
    parts ++ [("This record has limited full text, so retrieval should be " ++
      "treated as metadata-level evidence.").toList]
    else parts
  clean_text (List.intercalate " ".toList parts)

/-! ### Section-aware chunker (lambda_function.py lines 563-653) -/

/-- Python `range(0, stop, step)` for positive `step`. -/
def pyRange (stop step : ℕ) : List ℕ := List.range' 0 ((stop + step - 1) / step) step

/-- The body of the `for start in range(0, len(words), step)` loop of
`chunk_text` (lines 573-582), processing the list of window start offsets:
stop before a window shorter than `min_words`; append the stripped window
join when non-empty; stop after a window whose right edge reaches the end. -/
def chunkLoop (ws : List (List Char)) (cs mw : ℕ) : List ℕ → List (List Char)
  | [] => []
  | start :: rest =>
    let window := (ws.drop start).take cs
    if window.length < mw then []
    else
      let c := pyStrip (joinSp window)
      let tail := if ws.length ≤ start + cs then [] else chunkLoop ws cs mw rest
      if c = [] then tail else c :: tail

/-- `chunk_text` (lines 563-583). -/
def chunk_text (text : List Char) (cs ow mw : ℕ) : List (List Char) :=
  let t := clean_text text
  if t = [] then []
  else
    let words := splitSp t
    if words.length ≤ cs then [t]
    else chunkLoop words cs mw (pyRange words.length (max 1 (cs - ow)))

/-- Does the alternative literal match case-insensitively at offset `i` with a
`\b` boundary after it?  (Every alternative ends in a letter, so the closing
`\b` holds exactly when the next character is absent or a non-word
character.) -/
def matchesCIAt (text : List Char) (i : ℕ) (alt : List Char) : Bool :=
  (pyLower ((text.drop i).take alt.length) = pyLower alt) &&
  (decide (text.length ≤ i + alt.length) || !isWordChar (text.getD (i + alt.length) ' '))

/-- Is `i` the start of a match of the `\b`-delimited pattern given by its
alternative literals (longest first, as the regex tries them)?  Only match
starts are used by `split_sections`, and two matches of one such pattern can
never overlap (each is a whole `\b`-delimited word or word sequence), so the
set of `re.finditer` match starts is exactly this pointwise predicate. -/
def isMatchStart (text : List Char) (alts : List (List Char)) (i : ℕ) : Bool :=
  (decide (i = 0) || !isWordChar (text.getD (i - 1) ' ')) && alts.any (matchesCIAt text i)

/-- All match starts of one heading pattern. -/
def patStarts (text : List Char) (alts : List (List Char)) : List ℕ :=
  (List.range text.length).filter (isMatchStart text alts)

/-- The ordered heading pattern table of `split_sections` (lines 590-605),
each regular expression expanded into its alternative literals. -/
def heading_patterns : List (List (List Char) × List Char) :=
  [ (["abstract".toList], "abstract".toList),
    (["introduction".toList], "introduction".toList),
    (["background".toList], "background".toList),
    (["related work".toList], "related_work".toList),
    (["methods".toList, "method".toList], "methods".toList),
    (["materials and methods".toList], "methods".toList),
    (["experimental setup".toList], "methods".toList),
    (["datasets".toList, "dataset".toList], "dataset".toList),
    (["results".toList, "result".toList], "results".toList),
    (["analysis".toList], "analysis".toList),
    (["discussion".toList], "discussion".toList),
    (["limitations".toList, "limitation".toList], "limitations".toList),
    (["future work".toList], "future_work".toList),
    (["conclusions".toList, "conclusion".toList], "conclusion".toList) ]

/-- The `(m.start(), label)` markers collected for all patterns, skipping
offset 0 (lines 607-611). -/
def heading_markers (clean : List Char) : List (ℕ × List Char) :=
  (heading_patterns.map (fun pl =>
    ((patStarts clean pl.1).filter (fun i => i ≠ 0)).map (fun i => (i, pl.2)))).flatten

/-- Stable insertion (ascending by position): models Python's stable
`sorted(markers, key=lambda x: x[0])`. -/
def insertByPos (x : ℕ × List Char) : List (ℕ × List Char) → List (ℕ × List Char)
  | [] => [x]
  | y :: ys => if y.1 < x.1 then y :: insertByPos x ys else x :: y :: ys

def sortByPos : List (ℕ × List Char) → List (ℕ × List Char)
  | [] => []
  | x :: xs => insertByPos x (sortByPos xs)

/-- Deduplicate by start offset, keeping the first occurrence
(lines 613-619). -/
def dedupByPos : List (ℕ × List Char) → List ℕ → List (ℕ × List Char)
  | [], _ => []
  | m :: ms, seen =>
    if m.1 ∈ seen then dedupByPos ms seen else m :: dedupByPos ms (m.1 :: seen)

/-- One labeled section (`{"section": label, "text": segment}`). -/
structure Sect where
  label : List Char
  text : List Char
deriving DecidableEq, Repr

/-- The `for idx, (start, label) in enumerate(dedup)` loop of
`split_sections` (lines 621-627): each segment runs to the next marker (or the
end), is re-cleaned, and empty segments are skipped. -/
def sectionsOf (clean : List Char) : List (ℕ × List Char) → List Sect
  | [] => []
  | (start, lab) :: rest =>
    let e := match rest with
      | [] => clean.length
      | (q, _) :: _ => q
    let seg := clean_text ((clean.drop start).take (e - start))
    (if seg = [] then [] else [⟨lab, seg⟩]) ++ sectionsOf clean rest

/-- `split_sections` (lines 586-630). -/
def split_sections (text : List Char) : List Sect :=
  let clean := clean_text text
  if clean = [] then []
  else
    let markers := (0, "body".toList) :: heading_markers clean
    let dedup := dedupByPos (sortByPos markers) []
    let sections := sectionsOf clean dedup
    if sections = [] then [⟨"body".toList, clean⟩] else sections

/-- One chunk row of `chunk_text_with_sections`. -/
structure ChunkRow where
  text : List Char
  sectionLabel : List Char
  sectionIndex : ℕ
deriving DecidableEq, Repr

/-- `chunk_text_with_sections` (lines 633-653). -/
def chunk_text_with_sections (text : List Char) (cs ow mw : ℕ) : List ChunkRow :=
  let sections := split_sections text
  (sections.enum.map (fun p =>
    let raw := if p.2.label = [] then "body".toList else p.2.label
    let n := clean_text raw
    let sectionName := if n = [] then "body".toList else n
    (chunk_text p.2.text cs ow mw).map (fun c => ChunkRow.mk c sectionName p.1))).flatten

example :
    chunk_text "a b c d e f g h i j k l".toList 5 2 1
      = ["a b c d e".toList, "d e f g h".toList, "g h i j k".toList, "j k l".toList] := by
  decide

example :
    split_sections "alpha Introduction beta Results gamma".toList
      = [⟨"body".toList, "alpha".toList⟩,
         ⟨"introduction".toList, "Introduction beta".toList⟩,
         ⟨"results".toList, "Results gamma".toList⟩] := by
  decide

example :
    ((split_sections "a introduction b".toList).map Sect.text).flatten
      ≠ clean_text "a introduction b".toList := by
  decide

/-! ### Hybrid reranker (lambda_function.py lines 740-774) -/

def isLowerAlnum (c : Char) : Bool := ('a' ≤ c && c ≤ 'z') || ('0' ≤ c && c ≤ '9')

/-- `re.findall(r"[a-z0-9]{3,}", s)`: the greedy quantifier makes every match
a maximal run of `[a-z0-9]`, and runs shorter than 3 yield nothing; so the
matches are exactly the maximal alphanumeric runs of length at least 3. -/
def alnumRunsAux : List Char → List Char → List (List Char)
  | acc, [] => if acc = [] then [] else [acc.reverse]
  | acc, c :: rest =>
    if isLowerAlnum c then alnumRunsAux (c :: acc) rest
    else if acc = [] then alnumRunsAux [] rest
    else acc.reverse :: alnumRunsAux [] rest

/-- `tokenize_for_overlap` (lines 740-741); the Python `set` is modelled as a
deduplicated list. -/
def tokenize_for_overlap (text : List Char) : List (List Char) :=
  ((alnumRunsAux [] (pyLower (clean_text text))).filter (fun r => 3 ≤ r.length)).dedup

/-- `lexical_overlap_score` (lines 744-751):
`|q_tokens ∩ c_tokens| / |q_tokens|`. -/
def lexical_overlap_score (query cand : List Char) : ℚ :=
  let q := tokenize_for_overlap query
  if q = [] then 0
  else
    let c := tokenize_for_overlap cand
    if c = [] then 0
    else ((q.filter (fun t => t ∈ c)).length : ℚ) / (q.length : ℚ)

/-- Vector-store chunk metadata as read by the reranker and the reference
builder.  `authors` is the joined author string written at ingestion
(line 1224); the list branch of `_coerce_author_list` is unreachable for
vector-store metadata and is noted at that definition. -/
structure Meta where
  paperId : Option PyV := none
  title : Option PyV := none
  authors : Option PyV := none
  year : Option PyV := none
  citationCount : Option PyV := none
  venue : Option PyV := none
  doi : Option PyV := none
  url : Option PyV := none
  source : Option PyV := none
  chunkText : Option PyV := none
  sectionLabel : Option PyV := none
deriving DecidableEq, Repr

/-- A vector-store match: raw similarity `score`, metadata, and the
`hybridScore` key (absent on input, set on the copies the reranker returns).
Float arithmetic is modelled exactly over `ℚ`. -/
structure VMatch where
  score : Option ℚ := none
  metadata : Option Meta := none
  hybridScore : Option ℚ := none
deriving DecidableEq, Repr

/-- `float(m.get("score", 0.0) or 0.0)`. -/
def matchScore (m : VMatch) : ℚ := m.score.getD 0

/-- Python `max(a, b)` on numbers (the first argument wins ties), written
with the executable comparison `Rat.blt` so that concrete instances evaluate
by kernel reduction. -/
def qmax (a b : ℚ) : ℚ := if Rat.blt a b then b else a

/-- Python `min(a, b)` on numbers. -/
def qmin (a b : ℚ) : ℚ := if Rat.blt b a then b else a

/-- Python `min(a, b)` on integers. -/
def imin (a b : ℤ) : ℤ := if b < a then b else a

def minListQ : List ℚ → ℚ
  | [] => 0
  | x :: xs => xs.foldl qmin x

def maxListQ : List ℚ → ℚ
  | [] => 0
  | x :: xs => xs.foldl qmax x

/-- The hybrid score computed for one match (lines 763-768), given the
min-max data of the candidate set:
`0.70 * semantic + 0.25 * lexical + 0.05 * citation`. -/
def hybridFor (question : List Char) (minS span : ℚ) (m : VMatch) : ℚ :=
  let meta := m.metadata.getD {}
  let semantic := (matchScore m - minS) / span
  let lexical := lexical_overlap_score question (strOrEmpty meta.chunkText)
  let citation := ((imin (as_int meta.citationCount 0) 5000 : ℤ) : ℚ) / 5000
  (7 / 10) * semantic + (1 / 4) * lexical + (1 / 20) * citation

/-- Stable insertion for a descending sort: models Python's stable
`list.sort(key=..., reverse=True)` (equal keys keep their original relative
order). -/
def insertDesc (x : ℚ × VMatch) : List (ℚ × VMatch) → List (ℚ × VMatch)
  | [] => [x]
  | y :: ys => if Rat.blt x.1 y.1 then y :: insertDesc x ys else x :: y :: ys

def sortDesc : List (ℚ × VMatch) → List (ℚ × VMatch)
  | [] => []
  | x :: xs => insertDesc x (sortDesc xs)

/-- `hybrid_rerank_matches` (lines 754-774). -/
def hybrid_rerank_matches (question : List Char) (ms : List VMatch) (top_k : ℕ) :
    List VMatch :=
  match ms with
  | [] => []
  | _ :: _ =>
    let semantic_scores := ms.map matchScore
    let minS := minListQ semantic_scores
    let span := qmax (maxListQ semantic_scores - minS) (1 / 100000000)
    let ranked := ms.map (fun m =>
      let fs := hybridFor question minS span m
      (fs, { m with hybridScore := some fs }))
    ((sortDesc ranked).take top_k).map Prod.snd

/-! ### Reference/citation builder (lambda_function.py lines 777-918) -/

/-- `_paper_key` (lines 777-785). -/
def paper_key (meta : Meta) : List Char :=
  let pid := clean_text (strOrEmpty meta.paperId)
  if pid ≠ [] then "id:".toList ++ pid
  else
    let doi := pyLower (clean_text (strOrEmpty meta.doi))
    if doi ≠ [] then "doi:".toList ++ doi
    else "title:".toList ++ pyLower (clean_text (strOrEmpty meta.title))

/-- `_short_name_tokens` (lines 788-794). -/
def short_name_tokens (full : List Char) : List Char × List Char :=
  let tokens := pySplitWs (clean_text full)
  match tokens with
  | [] => ([], [])
  | [t] => (t, [])
  | ts => (ts.getLastD [], joinSp ts.dropLast)

/-- `_coerce_author_list` (lines 797-804) on the metadata value.  The
list-of-strings branch of the Python function is unreachable here because
vector-store metadata always carries `authors` as one joined string
(ingestion line 1224); non-string non-None values coerce to `[]`. -/
def coerce_author_list (v : Option PyV) : List (List Char) :=
  match v with
  | some (.pstr s) => ((splitChar ',' s).map clean_text).filter (fun x => x ≠ [])
  | _ => []

/-- `" ".join([f"{g[0]}." for g in given.split() if g])`. -/
def initialsOf (given : List Char) : List Char :=
  joinSp ((pySplitWs given).map (fun g => g.take 1 ++ ".".toList))

/-- The APA branch of `_format_author_list` (lines 812-826). -/
def formatAPA (author_list : List (List Char)) : List Char :=
  let max_authors := min 7 author_list.length
  let parts := (author_list.take max_authors).foldr (fun full out =>
    let ln := (short_name_tokens full).1
    let initials := initialsOf (short_name_tokens full).2
    if ln ≠ [] ∧ initials ≠ [] then (ln ++ ", ".toList ++ initials) :: out
    else if ln ≠ [] then ln :: out
    else out) []
  if parts.length = 1 then parts.headD []
  else if 1 < parts.length then
    List.intercalate ", ".toList parts.dropLast ++ ", & ".toList ++ parts.getLastD []
  else "Unknown author".toList

/-- The MLA branch of `_format_author_list` (lines 828-837); the caller
guarantees a non-empty author list. -/
def formatMLA (author_list : List (List Char)) : List Char :=
  match author_list with
  | [] => []
  | [a] =>
    let (ln, given) := short_name_tokens a
    if given ≠ [] then ln ++ ", ".toList ++ given else ln
  | a :: rest =>
    let (ln, given) := short_name_tokens a
    let first := if given ≠ [] then ln ++ ", ".toList ++ given else ln
    if 2 < author_list.length then first ++ ", et al.".toList
    else first ++ ", and ".toList ++ rest.headD []

/-- The IEEE branch of `_format_author_list` (lines 839-849). -/
def formatIEEE (author_list : List (List Char)) : List Char :=
  let base := (author_list.take 6).map (fun full =>
    let (ln, given) := short_name_tokens full
    let initials := initialsOf given
    if initials ≠ [] ∧ ln ≠ [] then initials ++ " ".toList ++ ln
    else if ln ≠ [] then ln else full)
  let withEt := if 6 < author_list.length then base ++ ["et al.".toList] else base
  let joined := List.intercalate ", ".toList (withEt.filter (fun x => x ≠ []))
  if joined ≠ [] then joined else "Unknown author".toList

/-- `_format_author_list` (lines 807-849). -/
def format_author_list (v : Option PyV) (style : List Char) : List Char :=
  let author_list := coerce_author_list v
  if author_list = [] then "Unknown author".toList
  else
    let st := pyLower style
    if st = "apa".toList then formatAPA author_list
    else if st = "mla".toList then formatMLA author_list
    else formatIEEE author_list

/-- `_reference_link` (lines 852-856). -/
def reference_link (meta : Meta) : List Char :=
  let doi := clean_text (strOrEmpty meta.doi)
  if doi ≠ [] then "https://doi.org/".toList ++ doi
  else clean_text (strOrEmpty meta.url)

/-- `format_reference` (lines 859-890). -/
def format_reference (meta : Meta) (citation_number : ℕ) (style0 : List Char) : List Char :=
  let style := pyLower (pyStrip (if style0 = [] then "apa".toList else style0))
  let authors := format_author_list meta.authors style
  let title := clean_text (strOrDefault meta.title "Untitled".toList)
  let venue := clean_text (strOrEmpty meta.venue)
  let year := strOrDefault meta.year "n.d.".toList
  let link := reference_link meta
  if style = "ieee".toList then
    let line := "[".toList ++ natToChars citation_number ++ "] ".toList ++ authors ++
      ", \"".toList ++ title ++ ",\"".toList
    let line := if venue ≠ [] then line ++ " ".toList ++ venue ++ ",".toList else line
    let line := line ++ " ".toList ++ year ++ ".".toList
    if link ≠ [] then line ++ " ".toList ++ link else line
  else if style = "mla".toList then
    let line := authors ++ ". \"".toList ++ title ++ ".\"".toList
    let line := if venue ≠ [] then line ++ " ".toList ++ venue ++ ",".toList else line
    let line := line ++ " ".toList ++ year ++ ".".toList
    if link ≠ [] then line ++ " ".toList ++ link else line
  else
    let line := authors ++ " (".toList ++ year ++ "). ".toList ++ title ++ ".".toList
    let line := if venue ≠ [] then line ++ " ".toList ++ venue ++ ".".toList else line
    if link ≠ [] then line ++ " ".toList ++ link else line

/-- One reference record built by `build_references`. -/
structure Reference where
  citationNumber : ℕ
  paperId : Option PyV
  title : Option PyV
  year : Option PyV
  venue : Option PyV
  source : Option PyV
  doi : Option PyV
  url : Option PyV
  formatted : List Char
deriving DecidableEq, Repr

/-- The `for match in matches` loop of `build_references` (lines 897-916);
`p2c` is the insertion-ordered `paper_to_citation` dict. -/
def buildRefsLoop (style : List Char) :
    List VMatch → List Reference → List (List Char × ℕ) →
    List Reference × List (List Char × ℕ)
  | [], refs, p2c => (refs, p2c)
  | m :: ms, refs, p2c =>
    let meta := m.metadata.getD {}
    let key := paper_key meta
    match lookupAssoc key p2c with
    | some _ => buildRefsLoop style ms refs p2c
    | none =>
      let n := refs.length + 1
      buildRefsLoop style ms
        (refs ++ [⟨n, meta.paperId, meta.title, meta.year, meta.venue, meta.source,
          meta.doi, meta.url, format_reference meta n style⟩])
        (p2c ++ [(key, n)])

/-- `build_references` (lines 893-918). -/
def build_references (ms : List VMatch) (style : List Char) :
    List Reference × List (List Char × ℕ) :=
  buildRefsLoop style ms [] []

/-! ### Ingestion orchestrator (lambda_function.py lines 1112-1267)

External effects are supplied as per-paper oracle values: the wall-clock
elapsed seconds observed at each of the three budget checkpoints, the text
produced by `extract_pdf_text` (an exception there is caught and logged at
lines 1169-1170, which is observationally an empty text), and the combined
outcome of `openai_embed_texts` / the count check / `pinecone_upsert`
(`embedError = some msg` models any exception raised in that tail of the
`try` block, including `RuntimeError("Embedding count mismatch")`).  The
construction of the vector metadata (lines 1210-1247) does not influence the
returned counters and entries, so its value is not recorded in the result. -/

/-- Default of the `RAG_MAX_CHUNKS_PER_PAPER` environment variable
(line 26). -/
def MAX_CHUNKS_PER_PAPER : ℕ := 16

structure PaperOracle where
  tLoop : ℚ := 0
  tPdf : ℚ := 0
  tEmbed : ℚ := 0
  pdfText : List Char := []
  embedError : Option (List Char) := none
deriving DecidableEq, Repr

structure SkipEntry where
  paperId : List Char
  title : List Char
  reason : List Char
deriving DecidableEq, Repr

structure FailEntry where
  paperId : List Char
  title : List Char
  error : List Char
deriving DecidableEq, Repr

structure IngestState where
  ingested_papers : ℕ := 0
  ingested_chunks : ℕ := 0
  skipped : List SkipEntry := []
  failed : List FailEntry := []
  timed_out : Bool := false
deriving DecidableEq, Repr

structure IngestResult where
  ingestedPapers : ℕ
  ingestedChunks : ℕ
  skippedPapers : List SkipEntry
  failedPapers : List FailEntry
  timedOut : Bool
  timeBudgetSeconds : Option ℚ
deriving DecidableEq, Repr

/-- `max_seconds and (time.time() - start_time) >= threshold(max_seconds)`:
falsy budgets (None or 0) disable the check. -/
def budgetHit (ms : Option ℚ) (elapsed : ℚ) (threshold : ℚ → ℚ) : Bool :=
  match ms with
  | none => false
  | some m => decide (m ≠ 0) && !(Rat.blt elapsed (threshold m))

def skipReasonBudget : List Char :=
  ("Deferred due to ingest time budget (avoid API Gateway timeout). " ++
   "Retry with lower limit or no PDF extraction.").toList

def skipReasonPdf : List Char :=
  "Skipped PDF extraction due to remaining time budget.".toList

def skipReasonNoText : List Char :=
  "No abstract/fullText/PDF text available".toList

def skipReasonTooShort : List Char :=
  "Text too short after chunking".toList

def skipReasonEmbed : List Char :=
  "Deferred due to remaining ingest time budget before embedding/upsert.".toList

/-- `should_extract_pdf` of lines 1155-1159: PDF requested, allowed for the
paper, and a URL is present. -/
def ingestSep (extract_pdf : Bool) (paper : Paper) : Bool :=
  extract_pdf && as_bool (some (.pbool paper.allowPdfExtract)) true
    && paper.pdfUrl ≠ []

/-- PDF extraction is wanted but the reduced budget `max(1, m - 4)` is
already exhausted at the checkpoint (lines 1160-1166). -/
def ingestPdfNotice (extract_pdf : Bool) (ms : Option ℚ)
    (paper : Paper) (orc : PaperOracle) : Bool :=
  ingestSep extract_pdf paper && budgetHit ms orc.tPdf (fun m => qmax 1 (m - 4))

/-- `text_parts` after the optional PDF text (lines 1147-1177). -/
def ingestTextParts (extract_pdf : Bool) (ms : Option ℚ)
    (paper : Paper) (orc : PaperOracle) : List (List Char) :=
  ((if paper.title ≠ [] then [paper.title] else []) ++
   (if paper.fullText ≠ [] then [paper.fullText] else []) ++
   (if paper.abstract ≠ [] then [paper.abstract] else [])) ++
  (if ingestSep extract_pdf paper && !ingestPdfNotice extract_pdf ms paper orc
      && orc.pdfText ≠ [] then [orc.pdfText] else [])

/-- The merged text after cleaning and the metadata fallback (lines
1179-1190); `none` when both are empty. -/
def ingestMergedText (extract_pdf : Bool) (ms : Option ℚ)
    (paper : Paper) (orc : PaperOracle) : Option (List Char) :=
  let merged0 := clean_text
    (List.intercalate "\n\n".toList (ingestTextParts extract_pdf ms paper orc))
  if merged0 = [] then
    let fb := build_metadata_fallback_text paper
    if fb = [] then none else some fb
  else some merged0

/-- The rest of a loop iteration once the loop-top budget check has passed
and the paper is normalized (lines 1147-1258); this part raises nothing. -/
def ingestTail (extract_pdf : Bool) (cs ow mw : ℕ) (ms : Option ℚ)
    (st : IngestState) (paper : Paper) (orc : PaperOracle) : IngestState :=
  let st1 := if ingestPdfNotice extract_pdf ms paper orc then
      { st with skipped := st.skipped ++ [⟨paper.paperId, paper.title, skipReasonPdf⟩] }
    else st
  match ingestMergedText extract_pdf ms paper orc with
  | none =>
    { st1 with skipped := st1.skipped ++
      [⟨paper.paperId, paper.title, skipReasonNoText⟩] }
  | some merged_text =>
    let chunk_rows := chunk_text_with_sections merged_text cs ow mw
    if chunk_rows = [] then
      { st1 with skipped := st1.skipped ++
        [⟨paper.paperId, paper.title, skipReasonTooShort⟩] }
    else
      let chunk_rows := if MAX_CHUNKS_PER_PAPER < chunk_rows.length then
          chunk_rows.take MAX_CHUNKS_PER_PAPER else chunk_rows
      if budgetHit ms orc.tEmbed (fun m => qmax 1 (m - 3)) then
        { st1 with
          timed_out := true
          skipped := st1.skipped ++ [⟨paper.paperId, paper.title, skipReasonEmbed⟩] }
      else
        match orc.embedError with
        | some e =>
          { st1 with failed := st1.failed ++ [⟨paper.paperId, paper.title, e⟩] }
        | none =>
          { st1 with
            ingested_papers := st1.ingested_papers + 1
            ingested_chunks := st1.ingested_chunks + chunk_rows.length }

/-- One iteration of the `for raw in papers` loop of `ingest_papers`
(lines 1130-1258). -/
def ingestStep (extract_pdf : Bool) (cs ow mw : ℕ) (ms : Option ℚ)
    (st : IngestState) (raw : RawPaper) (orc : PaperOracle) : Except PyErr IngestState := do
  let paper ← normalize_paper raw
  if budgetHit ms orc.tLoop (fun m => m) then
    return { st with
      timed_out := true
      skipped := st.skipped ++ [⟨paper.paperId, paper.title, skipReasonBudget⟩] }
  else
    return ingestTail extract_pdf cs ow mw ms st paper orc

def ingestLoop (extract_pdf : Bool) (cs ow mw : ℕ) (ms : Option ℚ) :
    List (RawPaper × PaperOracle) → IngestState → Except PyErr IngestState
  | [], st => .ok st
  | (raw, orc) :: rest, st => do
    ingestLoop extract_pdf cs ow mw ms rest (← ingestStep extract_pdf cs ow mw ms st raw orc)

/-- `ingest_papers` (lines 1112-1267). -/
def ingest_papers (papers : List (RawPaper × PaperOracle)) (extract_pdf : Bool)
    (cs ow mw : ℕ) (ms : Option ℚ) : Except PyErr IngestResult :=
  (ingestLoop extract_pdf cs ow mw ms papers {}).map
    (fun st => ⟨st.ingested_papers, st.ingested_chunks, st.skipped, st.failed,
      st.timed_out, ms⟩)

/-! ### Request dispatch (lambda_function.py lines 33-47, 1673-1676,
1747-1776)

The bodies of `handle_ingest` / `handle_ask` (past its question check) /
`handle_insights` / `handle_gaps` perform network work; their outcomes are
supplied by a `HandlerOracle` (a returned JSON payload, or a raised
exception). -/

/-- The request-body fields the dispatcher itself reads.  The remaining body
fields are consumed inside the handlers, which the oracle summarizes. -/
structure ReqBody where
  action : Option PyV := none
  question : Option PyV := none
deriving DecidableEq, Repr

/-- Oracle for `json.loads` on a string body: a dict, a non-dict JSON value,
or a parse failure. -/
inductive JParse
  | jdict (b : ReqBody)
  | jnondict
  | jfail
deriving DecidableEq, Repr

inductive EventBody
  | dictB (b : ReqBody)
  | strB (s : List Char) (parsed : JParse)
  | noneB
deriving DecidableEq, Repr

/-- An invocation event.  `eventAction`/`eventQuestion` model the event's own
top-level keys, read when `parse_event_body` falls back to `return event`. -/
structure Event where
  httpMethod : Option (List Char) := none
  body : EventBody := .dictB {}
  eventAction : Option PyV := none
  eventQuestion : Option PyV := none
deriving DecidableEq, Repr

/-- Result of `parse_event_body`: a dict, or a non-dict JSON value (which the
Python function returns as-is and on which the later `body.get` raises). -/
inductive ParsedBody
  | pb (b : ReqBody)
  | pbNonDict
deriving DecidableEq, Repr

/-- `parse_event_body` (lines 33-47). -/
def parse_event_body (ev : Event) : ParsedBody :=
  match ev.body with
  | .dictB b => .pb b
  | .strB s p =>
    if pyStrip s = [] then .pb {}
    else
      match p with
      | .jdict b => .pb b
      | .jnondict => .pbNonDict
      | .jfail => .pb {}
  | .noneB => .pb ⟨ev.eventAction, ev.eventQuestion⟩

/-- Outcomes of the four handlers, past the dispatcher's own checks. -/
structure HandlerOracle where
  ingestRes : Except PyErr (List Char) := .ok []
  askRes : Except PyErr (List Char) := .ok []
  insightsRes : Except PyErr (List Char) := .ok []
  gapsRes : Except PyErr (List Char) := .ok []
deriving DecidableEq, Repr

/-- A response body: either a handler's JSON payload or an
`{"error": msg}` object. -/
inductive RespBody
  | payload (data : List Char)
  | errorMsg (msg : List Char)
deriving DecidableEq, Repr

structure HttpResponse where
  statusCode : ℕ
  body : RespBody
deriving DecidableEq, Repr

/-- The leading input check of `handle_ask` (lines 1673-1676): an empty
cleaned question raises `ValueError("question is required")`; the rest of the
handler is the oracle outcome. -/
def handle_ask (b : ReqBody) (o : HandlerOracle) : Except PyErr (List Char) :=
  if clean_text (strOrEmpty b.question) = [] then
    .error (.valueError "question is required".toList)
  else o.askRes

/-- The body of the `try` block of `lambda_handler` (lines 1751-1771): parse
the body, read the action (default `ask`), dispatch; an unknown action yields
the 400 invalid-action response. -/
def handlerDispatch (ev : Event) (o : HandlerOracle) : Except PyErr (ℕ × RespBody) :=
  match parse_event_body ev with
  | .pbNonDict =>
    throw (.typeError "\x27list\x27 object has no attribute \x27get\x27".toList)
  | .pb b =>
    let action := pyLower (clean_text (strOrDefault b.action "ask".toList))
    if action = "ingest".toList then (o.ingestRes).map (fun s => (200, .payload s))
    else if action = "ask".toList then (handle_ask b o).map (fun s => (200, .payload s))
    else if action = "insights".toList then (o.insightsRes).map (fun s => (200, .payload s))
    else if action = "gaps".toList then (o.gapsRes).map (fun s => (200, .payload s))
    else pure (400,
      .errorMsg "Invalid action. Use \x27ingest\x27, \x27ask\x27, \x27insights\x27, or \x27gaps\x27.".toList)

/-- `lambda_handler` (lines 1747-1776): `OPTIONS` is answered before the
`try`; `ValueError` maps to 400, every other exception to 500 with the
exception text. -/
def lambda_handler (ev : Event) (o : HandlerOracle) : HttpResponse :=
  if pyUpper (strOrEmpty (ev.httpMethod.map .pstr)) = "OPTIONS".toList then
    ⟨200, .payload "ok".toList⟩
  else
    match handlerDispatch ev o with
    | .ok (c, b) => ⟨c, b⟩
    | .error (.valueError m) => ⟨400, .errorMsg m⟩
    | .error (.typeError m) => ⟨500, .errorMsg ("Internal server error: ".toList ++ m)⟩
    | .error (.runtimeError m) => ⟨500, .errorMsg ("Internal server error: ".toList ++ m)⟩

/-! ## Foundational lemmas about the text utilities -/

lemma splitChar_ne_nil (sep : Char) (l : List Char) : splitChar sep l ≠ [] := by
  induction l with
  | nil => simp [splitChar]
  | cons c rest ih =>
    simp only [splitChar]
    rcases h : splitChar sep rest with _ | ⟨w, ws⟩
    · exact absurd h ih
    · dsimp only
      split <;> simp

lemma splitChar_length_le (sep : Char) (l : List Char) :
    (splitChar sep l).length ≤ l.length + 1 := by
  induction l with
  | nil => simp [splitChar]
  | cons c rest ih =>
    simp only [splitChar]
    rcases h : splitChar sep rest with _ | ⟨w, ws⟩
    · exact absurd h (splitChar_ne_nil sep rest)
    · rw [h] at ih
      dsimp only
      split <;> simp_all <;> omega

lemma chunkLoop_length_le (ws : List (List Char)) (cs mw : ℕ) (starts : List ℕ) :
    (chunkLoop ws cs mw starts).length ≤ starts.length := by
  induction starts with
  | nil => simp [chunkLoop]
  | cons s rest ih =>
    simp only [chunkLoop]
    split
    · simp
    · split <;> split <;> simp_all <;> omega

lemma pyRange_length_le (stop step : ℕ) (h : 1 ≤ step) :
    (pyRange stop step).length ≤ stop := by
  unfold pyRange
  rw [List.length_range']
  rw [Nat.div_le_iff_le_mul_add_pred (by omega)]
  have h2 : stop ≤ step * stop := Nat.le_mul_of_pos_left stop (by omega)
  omega

/-- Claim C9: `chunk_text` terminates and returns a finite chunk list for
every input, including `overlap_words ≥ chunk_size_words`: the window step is
internally clamped to `max 1 (chunk_size_words - overlap_words) ≥ 1`, so the
loop always advances; the number of chunks never exceeds the length of the
cleaned text plus one. -/
theorem chunk_text_terminates (text : List Char) (cs ow mw : ℕ) :
    1 ≤ max 1 (cs - ow) ∧
    (chunk_text text cs ow mw).length ≤ (clean_text text).length + 1 := by
  refine ⟨le_max_left 1 _, ?_⟩
  unfold chunk_text
  dsimp only
  split
  · simp
  · split
    · simp
    · calc (chunkLoop (splitSp (clean_text text)) cs mw
            (pyRange (splitSp (clean_text text)).length (max 1 (cs - ow)))).length
          ≤ (pyRange (splitSp (clean_text text)).length (max 1 (cs - ow))).length :=
            chunkLoop_length_le _ _ _ _
        _ ≤ (splitSp (clean_text text)).length :=
            pyRange_length_le _ _ (le_max_left 1 _)
        _ ≤ (clean_text text).length + 1 := splitChar_length_le _ _

/-! ### Cleaned texts as word lists

A cleaned NUL-free text is exactly `joinSp ws` for a list of non-empty,
whitespace-free, NUL-free words.  The following lemmas provide the round
trips between `joinSp`, `splitSp` and `clean_text` on such word lists. -/

/-- A word of a cleaned, NUL-free text: non-empty, no whitespace, no NUL. -/
def goodWord (w : List Char) : Prop :=
  w ≠ [] ∧ ∀ c ∈ w, isWS c = false ∧ c ≠ '\x00'

instance : DecidablePred goodWord := fun w => by unfold goodWord; infer_instance

lemma joinSp_cons (w : List Char) (ws : List (List Char)) (h : ws ≠ []) :
    joinSp (w :: ws) = w ++ ' ' :: joinSp ws := by
  cases ws with
  | nil => exact absurd rfl h
  | cons x xs => rfl

lemma joinSp_ne_nil (w : List Char) (ws : List (List Char)) (h : w ≠ []) :
    joinSp (w :: ws) ≠ [] := by
  cases ws with
  | nil => simpa [joinSp]
  | cons x xs => simp [joinSp_cons, h]

lemma joinSp_snoc (A : List (List Char)) (y : List Char) (h : A ≠ []) :
    joinSp (A ++ [y]) = joinSp A ++ ' ' :: y := by
  induction A with
  | nil => exact absurd rfl h
  | cons a A' ih =>
    cases A' with
    | nil => simp [joinSp]
    | cons b B =>
      rw [List.cons_append, joinSp_cons _ _ (by simp), joinSp_cons _ _ (by simp),
        ih (by simp)]
      simp

lemma reverse_joinSp (ws : List (List Char)) :
    (joinSp ws).reverse = joinSp ((ws.map List.reverse).reverse) := by
  induction ws with
  | nil => rfl
  | cons w ws' ih =>
    cases ws' with
    | nil => simp [joinSp]
    | cons x xs =>
      rw [joinSp_cons _ _ (by simp)]
      have hmap : ((w :: x :: xs).map List.reverse).reverse
          = ((x :: xs).map List.reverse).reverse ++ [w.reverse] := by simp
      rw [hmap, joinSp_snoc _ _ (by simp), ← ih]
      simp

lemma mem_joinSp (c : Char) (ws : List (List Char)) (hc : c ∈ joinSp ws) :
    c = ' ' ∨ ∃ w ∈ ws, c ∈ w := by
  induction ws with
  | nil => simp [joinSp] at hc
  | cons w ws' ih =>
    cases ws' with
    | nil => exact Or.inr ⟨w, by simp, hc⟩
    | cons x xs =>
      rw [joinSp_cons _ _ (by simp)] at hc
      rcases List.mem_append.1 hc with h1 | h2
      · exact Or.inr ⟨w, by simp, h1⟩
      · rcases List.mem_cons.1 h2 with h3 | h4
        · exact Or.inl h3
        · rcases ih h4 with h5 | ⟨u, hu, hcu⟩
          · exact Or.inl h5
          · exact Or.inr ⟨u, List.mem_cons_of_mem w hu, hcu⟩

lemma collapseAux_nonWS_prefix (w r : List Char) (hw : ∀ c ∈ w, isWS c = false) :
    ∀ b, w ≠ [] → collapseAux b (w ++ r) = w ++ collapseAux false r := by
  induction w with
  | nil => intro b h; exact absurd rfl h
  | cons c w' ih =>
    intro b _
    have hc : isWS c = false := hw c (by simp)
    simp only [List.cons_append, collapseAux, hc, Bool.false_eq_true, if_false,
      List.append_eq]
    by_cases hw' : w' = []
    · subst hw'; simp
    · rw [ih (fun d hd => hw d (by simp [hd])) false hw']

lemma collapseAux_joinSp (ws : List (List Char))
    (h : ∀ w ∈ ws, w ≠ [] ∧ ∀ c ∈ w, isWS c = false) :
    ∀ b, collapseAux b (joinSp ws) = joinSp ws := by
  induction ws with
  | nil => intro b; rfl
  | cons w ws' ih =>
    intro b
    have hw := h w (by simp)
    cases ws' with
    | nil =>
      have := collapseAux_nonWS_prefix w [] hw.2 b hw.1
      simpa [joinSp, collapseAux] using this
    | cons x xs =>
      rw [joinSp_cons _ _ (by simp),
        collapseAux_nonWS_prefix w (' ' :: joinSp (x :: xs)) hw.2 b hw.1]
      congr 1
      have hstep : collapseAux false (' ' :: joinSp (x :: xs))
          = ' ' :: collapseAux true (joinSp (x :: xs)) := rfl
      rw [hstep, ih (fun u hu => h u (by simp [hu])) true]

lemma getLastD_eq_headD_reverse (l : List Char) (d : Char) :
    l.getLastD d = l.reverse.headD d := by
  rcases h : l.reverse with _ | ⟨x, t⟩
  · have : l = [] := by simpa using congrArg List.reverse h
    subst this; rfl
  · have hl : l = t.reverse ++ [x] := by
      have := congrArg List.reverse h
      simpa using this
    rw [hl]
    simp [List.getLastD_concat]

lemma dropTrailWS_eq_self (l : List Char) (hlast : isWS (l.getLastD 'x') = false) :
    dropTrailWS l = l := by
  unfold dropTrailWS
  rcases h : l.reverse with _ | ⟨d, t⟩
  · have : l = [] := by simpa using congrArg List.reverse h
    subst this; rfl
  · have hd : l.getLastD 'x' = d := by
      rw [getLastD_eq_headD_reverse, h]; rfl
    have hl2 : isWS d = false := hd ▸ hlast
    rw [List.dropWhile_cons_of_neg (by simp [hl2]), ← h, List.reverse_reverse]

lemma pyStrip_eq_self (l : List Char) (hhead : isWS (l.headD 'x') = false)
    (hlast : isWS (l.getLastD 'x') = false) : pyStrip l = l := by
  unfold pyStrip
  have h1 : l.dropWhile isWS = l := by
    rcases l with _ | ⟨c, t⟩
    · rfl
    · exact List.dropWhile_cons_of_neg (by simpa using hhead)
  rw [h1, dropTrailWS_eq_self l hlast]

lemma joinSp_head_of_good (w : List Char) (ws : List (List Char)) (hw : w ≠ []) :
    ∃ c t, joinSp (w :: ws) = c :: t ∧ c ∈ w := by
  rcases w with _ | ⟨c, w'⟩
  · exact absurd rfl hw
  · cases ws with
    | nil => exact ⟨c, w', rfl, by simp⟩
    | cons x xs =>
      rw [joinSp_cons _ _ (by simp)]
      exact ⟨c, w' ++ ' ' :: joinSp (x :: xs), by simp, by simp⟩

lemma pyStrip_joinSp (ws : List (List Char)) (hne : ws ≠ [])
    (h : ∀ w ∈ ws, w ≠ [] ∧ ∀ c ∈ w, isWS c = false) :
    pyStrip (joinSp ws) = joinSp ws := by
  rcases ws with _ | ⟨w, ws'⟩
  · exact absurd rfl hne
  · obtain ⟨c, t, hct, hcw⟩ := joinSp_head_of_good w ws' (h w (by simp)).1
    apply pyStrip_eq_self
    · rw [hct]
      simpa using (h w (by simp)).2 c hcw
    · -- the last character is the last character of the last word, a good word
      rw [getLastD_eq_headD_reverse]
      have hrev : (joinSp (w :: ws')).reverse
          = joinSp (((w :: ws').map List.reverse).reverse) := reverse_joinSp _
      rcases hgl : ((w :: ws').map List.reverse).reverse with _ | ⟨u, us⟩
      · simp at hgl
      · have hu : u ∈ ((w :: ws').map List.reverse) := by
          rw [← List.mem_reverse, hgl]; simp
        rcases List.mem_map.1 hu with ⟨v, hv, huv⟩
        have hvgood := h v hv
        have hune : u ≠ [] := by
          rw [← huv]; simpa using hvgood.1
        obtain ⟨d, t', hdt, hdu⟩ := joinSp_head_of_good u us hune
        have hdv : d ∈ v := by
          rw [← huv] at hdu; exact List.mem_reverse.1 hdu
        rw [hrev, hgl, hdt]
        simpa using hvgood.2 d hdv

lemma clean_text_joinSp (ws : List (List Char)) (hne : ws ≠ [])
    (h : ∀ w ∈ ws, goodWord w) :
    clean_text (joinSp ws) = joinSp ws := by
  have h' : ∀ w ∈ ws, w ≠ [] ∧ ∀ c ∈ w, isWS c = false :=
    fun w hw => ⟨(h w hw).1, fun c hc => ((h w hw).2 c hc).1⟩
  unfold clean_text
  rw [collapseAux_joinSp ws h' false, pyStrip_joinSp ws hne h']
  rw [List.filter_eq_self.2]
  intro c hc
  rcases mem_joinSp c _ hc with h1 | ⟨w, hw, hcw⟩
  · subst h1; decide
  · simpa using ((h w hw).2 c hcw).2

lemma splitChar_no_sep (sep : Char) (w : List Char) (h : ∀ c ∈ w, c ≠ sep) :
    splitChar sep w = [w] := by
  induction w with
  | nil => rfl
  | cons c w' ih =>
    simp only [splitChar]
    rw [ih (fun d hd => h d (by simp [hd]))]
    dsimp only
    rw [if_neg (h c (by simp))]

lemma splitChar_append_head (sep : Char) (w l : List Char) (h : ∀ c ∈ w, c ≠ sep) :
    splitChar sep (w ++ l) =
      (w ++ (splitChar sep l).headD []) :: (splitChar sep l).tail := by
  induction w with
  | nil =>
    rcases hl : splitChar sep l with _ | ⟨x, xs⟩
    · exact absurd hl (splitChar_ne_nil sep l)
    · rw [List.nil_append, hl]; simp
  | cons c w' ih =>
    simp only [List.cons_append, splitChar, List.append_eq]
    rw [ih (fun d hd => h d (by simp [hd]))]
    dsimp only
    rw [if_neg (h c (by simp))]

lemma splitSp_joinSp (ws : List (List Char)) (hne : ws ≠ [])
    (h : ∀ w ∈ ws, ∀ c ∈ w, c ≠ ' ') :
    splitSp (joinSp ws) = ws := by
  induction ws with
  | nil => exact absurd rfl hne
  | cons w ws' ih =>
    cases ws' with
    | nil =>
      show splitSp w = [w]
      exact splitChar_no_sep ' ' w (h w (by simp))
    | cons x xs =>
      rw [joinSp_cons _ _ (by simp)]
      show splitChar ' ' (w ++ ' ' :: joinSp (x :: xs)) = w :: x :: xs
      rw [splitChar_append_head ' ' w _ (h w (by simp))]
      have hJ : splitChar ' ' (' ' :: joinSp (x :: xs))
          = [] :: splitChar ' ' (joinSp (x :: xs)) := by
        simp only [splitChar]
        rcases hh : splitChar ' ' (joinSp (x :: xs)) with _ | ⟨y, ys⟩
        · exact absurd hh (splitChar_ne_nil _ _)
        · simp
      rw [hJ]
      have hih : splitChar ' ' (joinSp (x :: xs)) = x :: xs :=
        ih (by simp) (fun u hu => h u (by simp [hu]))
      rw [hih]
      simp

lemma goodWord_chars (ws : List (List Char)) (h : ∀ w ∈ ws, goodWord w)
    (w : List Char) (hw : w ∈ ws) : ∀ c ∈ w, c ≠ ' ' := by
  intro c hc hsp
  have := ((h w hw).2 c hc).1
  rw [hsp] at this
  simp [isWS] at this

/-! ### The chunking loop on window start offsets -/

lemma joinSp_append_right (A X : List (List Char)) (h : X ≠ []) :
    ∃ pre, joinSp (A ++ X) = pre ++ joinSp X := by
  induction A with
  | nil => exact ⟨[], rfl⟩
  | cons a A' ih =>
    obtain ⟨pre, hpre⟩ := ih
    refine ⟨a ++ ' ' :: pre, ?_⟩
    rw [List.cons_append,
      joinSp_cons _ _ (fun hc => h (List.append_eq_nil.mp hc).2), hpre]
    simp

lemma joinSp_append_left (B C : List (List Char)) (h : B ≠ []) :
    ∃ suf, joinSp (B ++ C) = joinSp B ++ suf := by
  induction B with
  | nil => exact absurd rfl h
  | cons b B' ih =>
    cases B' with
    | nil =>
      cases C with
      | nil => exact ⟨[], by simp⟩
      | cons c cs =>
        refine ⟨' ' :: joinSp (c :: cs), ?_⟩
        rw [List.cons_append, List.nil_append, joinSp_cons _ _ (by simp)]
        rfl
    | cons x xs =>
      obtain ⟨suf, hsuf⟩ := ih (by simp)
      refine ⟨suf, ?_⟩
      rw [List.cons_append, joinSp_cons _ _ (fun hc => by simp at hc), hsuf]
      conv_rhs => rw [joinSp_cons b (x :: xs) (by simp)]
      simp

lemma joinSp_window_infix (ws : List (List Char)) (s cs : ℕ)
    (h : (ws.drop s).take cs ≠ []) :
    ∃ pre suf, joinSp ws = pre ++ joinSp ((ws.drop s).take cs) ++ suf := by
  have h1 : ws = ws.take s ++ ((ws.drop s).take cs ++ (ws.drop s).drop cs) := by
    rw [List.take_append_drop, List.take_append_drop]
  obtain ⟨pre, hpre⟩ := joinSp_append_right (ws.take s)
    ((ws.drop s).take cs ++ (ws.drop s).drop cs)
    (fun hc => h (List.append_eq_nil.mp hc).1)
  obtain ⟨suf, hsuf⟩ := joinSp_append_left ((ws.drop s).take cs) ((ws.drop s).drop cs) h
  refine ⟨pre, suf, ?_⟩
  conv_lhs => rw [h1]
  rw [hpre, hsuf, List.append_assoc]

lemma window_ne_nil (ws : List (List Char)) (s cs : ℕ) (hs : s < ws.length)
    (hcs : 1 ≤ cs) : (ws.drop s).take cs ≠ [] := by
  have hlen : ((ws.drop s).take cs).length = min cs (ws.length - s) := by
    simp [List.length_take, List.length_drop]
  intro hc
  rw [hc] at hlen
  simp at hlen
  omega

lemma window_good (ws : List (List Char)) (hg : ∀ w ∈ ws, goodWord w) (s cs : ℕ)
    (w : List Char) (hw : w ∈ (ws.drop s).take cs) : goodWord w :=
  hg w (List.drop_subset s ws (List.take_subset cs _ hw))

lemma window_join (ws : List (List Char)) (hg : ∀ w ∈ ws, goodWord w) (s cs : ℕ)
    (hs : s < ws.length) (hcs : 1 ≤ cs) :
    pyStrip (joinSp ((ws.drop s).take cs)) = joinSp ((ws.drop s).take cs) ∧
    joinSp ((ws.drop s).take cs) ≠ [] := by
  have hne := window_ne_nil ws s cs hs hcs
  have hgood : ∀ w ∈ (ws.drop s).take cs, w ≠ [] ∧ ∀ c ∈ w, isWS c = false :=
    fun w hw => ⟨(window_good ws hg s cs w hw).1,
      fun c hc => ((window_good ws hg s cs w hw).2 c hc).1⟩
  refine ⟨pyStrip_joinSp _ hne hgood, ?_⟩
  rcases hW : (ws.drop s).take cs with _ | ⟨w, rest⟩
  · exact absurd hW hne
  · exact joinSp_ne_nil w rest (hgood w (by rw [hW]; simp)).1

lemma pyRange_lt (stop step : ℕ) (hstep : 1 ≤ step) (x : ℕ)
    (hx : x ∈ pyRange stop step) : x < stop := by
  unfold pyRange at hx
  rw [List.mem_range'] at hx
  obtain ⟨i, hi, rfl⟩ := hx
  have h1 : i + 1 ≤ (stop + step - 1) / step := hi
  have h2 := Nat.mul_le_mul_left step h1
  have h4 : step * ((stop + step - 1) / step) ≤ stop + step - 1 := by
    rw [Nat.mul_comm]
    exact Nat.div_mul_le_self (stop + step - 1) step
  have h5 := le_trans h2 h4
  rw [Nat.mul_succ] at h5
  omega

lemma chunkLoop_spec (ws : List (List Char)) (cs mw step : ℕ)
    (hg : ∀ w ∈ ws, goodWord w) (hcs : 1 ≤ cs) :
    ∀ (n a : ℕ), (∀ x ∈ List.range' a n step, x < ws.length) →
      (∀ i (h : i < (chunkLoop ws cs mw (List.range' a n step)).length),
        (chunkLoop ws cs mw (List.range' a n step)).get ⟨i, h⟩
            = joinSp ((ws.drop (a + step * i)).take cs)
          ∧ mw ≤ ((ws.drop (a + step * i)).take cs).length
          ∧ a + step * i < ws.length)
      ∧ (∀ i, i + 1 < (chunkLoop ws cs mw (List.range' a n step)).length →
          a + step * i + cs < ws.length) := by
  intro n
  induction n with
  | zero =>
    intro a _
    constructor
    · intro i h
      simp [List.range', chunkLoop] at h
    · intro i h
      simp [List.range', chunkLoop] at h
  | succ n ih =>
    intro a hv
    have ha : a < ws.length := hv a (by rw [List.mem_range']; exact ⟨0, by omega, by simp⟩)
    have hrange : List.range' a (n + 1) step = a :: List.range' (a + step) n step := rfl
    rw [hrange]
    obtain ⟨hstripW, hWne⟩ := window_join ws hg a cs ha hcs
    by_cases hshort : ((ws.drop a).take cs).length < mw
    · have hres : chunkLoop ws cs mw (a :: List.range' (a + step) n step) = [] := by
        simp only [chunkLoop]
        rw [if_pos hshort]
      rw [hres]
      exact ⟨fun i h => absurd h (by simp), fun i h => absurd h (by simp)⟩
    · have hres : chunkLoop ws cs mw (a :: List.range' (a + step) n step)
          = joinSp ((ws.drop a).take cs) ::
            (if ws.length ≤ a + cs then []
             else chunkLoop ws cs mw (List.range' (a + step) n step)) := by
        simp only [chunkLoop]
        rw [if_neg hshort, hstripW, if_neg hWne]
      rw [hres]
      by_cases hend : ws.length ≤ a + cs
      · rw [if_pos hend]
        constructor
        · intro i h
          have hi0 : i = 0 := by simpa using Nat.lt_one_iff.mp (by simpa using h)
          subst hi0
          refine ⟨by simp, by simpa using Nat.le_of_not_lt hshort, by simpa using ha⟩
        · intro i h
          simp at h
      · rw [if_neg hend]
        have hv' : ∀ x ∈ List.range' (a + step) n step, x < ws.length := by
          intro x hx
          apply hv
          rw [List.mem_range'] at hx ⊢
          obtain ⟨j, hj, rfl⟩ := hx
          exact ⟨j + 1, by omega, by rw [Nat.mul_succ]; omega⟩
        obtain ⟨ih1, ih2⟩ := ih (a + step) hv'
        constructor
        · intro i h
          cases i with
          | zero =>
            refine ⟨by simp, by simpa using Nat.le_of_not_lt hshort, by simpa using ha⟩
          | succ j =>
            have h' : j < (chunkLoop ws cs mw (List.range' (a + step) n step)).length := by
              simpa using h
            have harith : a + step + step * j = a + step * (j + 1) := by
              rw [Nat.mul_succ]; omega
            obtain ⟨e1, e2, e3⟩ := ih1 j h'
            rw [harith] at e1 e2 e3
            exact ⟨by simpa using e1, e2, e3⟩
        · intro i h
          cases i with
          | zero =>
            have := Nat.lt_of_not_le hend
            simpa using this
          | succ j =>
            have h' : j + 1 < (chunkLoop ws cs mw (List.range' (a + step) n step)).length := by
              simpa using h
            have := ih2 j h'
            have harith : a + step + step * j = a + step * (j + 1) := by
              rw [Nat.mul_succ]; omega
            omega

/-- Claim C6 (confirmed): on a cleaned text — `joinSp ws` over non-empty,
whitespace-free, NUL-free words, which is exactly what `clean_text` produces
on NUL-free input — of more than `chunk_size_words` words, `chunk_text`
emits as its `i`-th chunk the window of `chunk_size_words` words starting at
word offset `i * step` with `step = max 1 (chunk_size_words - overlap_words)`;
every emitted window has at least `min_words` words (a shorter trailing
window is dropped, not emitted); a non-final chunk's window never reaches the
end of the word list (iteration stops once one does); every chunk is a
contiguous substring of the cleaned source; a text of at most
`chunk_size_words` words is returned as one chunk; and for the 12-word text
with sizes (5, 2, 1) the windows start at word offsets 0, 3, 6, 9 with the
last window of length 3. -/
theorem chunk_text_window_spec (ws : List (List Char))
    (hg : ∀ w ∈ ws, goodWord w) (hne : ws ≠ []) (cs ow mw : ℕ) (hcs : 1 ≤ cs) :
    (ws.length ≤ cs → chunk_text (joinSp ws) cs ow mw = [joinSp ws]) ∧
    (cs < ws.length →
      (∀ i, i < (chunk_text (joinSp ws) cs ow mw).length →
        (chunk_text (joinSp ws) cs ow mw).getD i []
            = joinSp ((ws.drop (max 1 (cs - ow) * i)).take cs)
          ∧ mw ≤ ((ws.drop (max 1 (cs - ow) * i)).take cs).length
          ∧ ∃ pre suf, joinSp ws
              = pre ++ (chunk_text (joinSp ws) cs ow mw).getD i [] ++ suf)
      ∧ (∀ i, i + 1 < (chunk_text (joinSp ws) cs ow mw).length →
          max 1 (cs - ow) * i + cs < ws.length)) ∧
    chunk_text "a b c d e f g h i j k l".toList 5 2 1
      = ["a b c d e".toList, "d e f g h".toList, "g h i j k".toList, "j k l".toList] := by
  have hclean : clean_text (joinSp ws) = joinSp ws := clean_text_joinSp ws hne hg
  have htne : joinSp ws ≠ [] := by
    rcases ws with _ | ⟨w, rest⟩
    · exact absurd rfl hne
    · exact joinSp_ne_nil w rest (hg w (by simp)).1
  have hsplit : splitSp (joinSp ws) = ws :=
    splitSp_joinSp ws hne (fun w hw => goodWord_chars ws hg w hw)
  have hdef : chunk_text (joinSp ws) cs ow mw =
      if ws.length ≤ cs then [joinSp ws]
      else chunkLoop ws cs mw (pyRange ws.length (max 1 (cs - ow))) := by
    unfold chunk_text
    dsimp only
    rw [hclean, if_neg htne, hsplit]
  refine ⟨?_, ?_, by decide⟩
  · intro hle
    rw [hdef, if_pos hle]
  · intro hlt
    have hres : chunk_text (joinSp ws) cs ow mw
        = chunkLoop ws cs mw (List.range' 0
            ((ws.length + max 1 (cs - ow) - 1) / max 1 (cs - ow)) (max 1 (cs - ow))) := by
      rw [hdef, if_neg (not_le.2 hlt)]
      rfl
    have hstep : 1 ≤ max 1 (cs - ow) := le_max_left 1 _
    have hv : ∀ x ∈ List.range' 0
        ((ws.length + max 1 (cs - ow) - 1) / max 1 (cs - ow)) (max 1 (cs - ow)),
        x < ws.length :=
      fun x hx => pyRange_lt ws.length (max 1 (cs - ow)) hstep x hx
    obtain ⟨spec1, spec2⟩ := chunkLoop_spec ws cs mw (max 1 (cs - ow)) hg hcs
      ((ws.length + max 1 (cs - ow) - 1) / max 1 (cs - ow)) 0 hv
    constructor
    · intro i hi
      have hi' : i < (chunkLoop ws cs mw (List.range' 0
          ((ws.length + max 1 (cs - ow) - 1) / max 1 (cs - ow))
          (max 1 (cs - ow)))).length := by
        rw [hres] at hi
        exact hi
      obtain ⟨e1, e2, e3⟩ := spec1 i hi'
      rw [Nat.zero_add] at e1 e2 e3
      have hgetD : (chunk_text (joinSp ws) cs ow mw).getD i []
          = joinSp ((ws.drop (max 1 (cs - ow) * i)).take cs) := by
        rw [hres, List.getD_eq_get _ _ hi', e1]
      refine ⟨hgetD, e2, ?_⟩
      obtain ⟨pre, suf, hps⟩ := joinSp_window_infix ws (max 1 (cs - ow) * i) cs
        (window_ne_nil ws _ cs e3 hcs)
      exact ⟨pre, suf, by rw [hgetD]; exact hps⟩
    · intro i hi
      have hi' : i + 1 < (chunkLoop ws cs mw (List.range' 0
          ((ws.length + max 1 (cs - ow) - 1) / max 1 (cs - ow))
          (max 1 (cs - ow)))).length := by
        rw [hres] at hi
        exact hi
      have := spec2 i hi'
      omega

/-- Witness for C6: the theorem applied to the 12-word list with
`chunk_size_words = 5`, `overlap_words = 2`, `min_words = 1`; the chunk at
index 1 is the window starting at word offset `step * 1 = 3`. -/
theorem chunk_text_window_spec_witness :
    (chunk_text (joinSp ["a".toList, "b".toList, "c".toList, "d".toList, "e".toList,
        "f".toList, "g".toList, "h".toList, "i".toList, "j".toList, "k".toList,
        "l".toList]) 5 2 1).getD 1 []
      = joinSp (((["a".toList, "b".toList, "c".toList, "d".toList, "e".toList,
        "f".toList, "g".toList, "h".toList, "i".toList, "j".toList, "k".toList,
        "l".toList]).drop (max 1 (5 - 2) * 1)).take 5) := by
  have h := ((chunk_text_window_spec ["a".toList, "b".toList, "c".toList, "d".toList,
    "e".toList, "f".toList, "g".toList, "h".toList, "i".toList, "j".toList,
    "k".toList, "l".toList] (by decide) (by decide) 5 2 1 (by decide)).2.1
    (by decide)).1 1 (by decide)
  exact h.1

/-! ### Reranker lemmas (claims C4 and C10) -/

lemma insertDesc_perm (x : ℚ × VMatch) (l : List (ℚ × VMatch)) :
    List.Perm (insertDesc x l) (x :: l) := by
  induction l with
  | nil => exact List.Perm.refl _
  | cons y ys ih =>
    simp only [insertDesc]
    split
    · exact (ih.cons y).trans (List.Perm.swap x y ys)
    · exact List.Perm.refl _

lemma sortDesc_perm (l : List (ℚ × VMatch)) : List.Perm (sortDesc l) l := by
  induction l with
  | nil => exact List.Perm.refl _
  | cons x xs ih => exact (insertDesc_perm x (sortDesc xs)).trans (ih.cons x)

/-- Every match returned by the reranker is a copy of some input match with
`hybridScore` set to the hybrid formula value. -/
lemma rerank_mem (q : List Char) (ms : List VMatch) (k : ℕ) (m' : VMatch)
    (hm : m' ∈ hybrid_rerank_matches q ms k) :
    ∃ m ∈ ms, m' = { m with hybridScore := some (hybridFor q
      (minListQ (ms.map matchScore))
      (qmax (maxListQ (ms.map matchScore) - minListQ (ms.map matchScore))
        (1 / 100000000)) m) } := by
  cases ms with
  | nil => simp [hybrid_rerank_matches] at hm
  | cons m0 rest =>
    unfold hybrid_rerank_matches at hm
    dsimp only at hm
    rcases List.mem_map.1 hm with ⟨p, hp, rfl⟩
    have hp2 := List.take_subset k _ hp
    have hp3 := (sortDesc_perm _).mem_iff.1 hp2
    rcases List.mem_map.1 hp3 with ⟨m, hm2, rfl⟩
    exact ⟨m, hm2, rfl⟩

/-- The higher-scoring concrete match of the C4 instance: raw score 0.9,
chunk text sharing one of the two query tokens, citation count 0. -/
def exMatchHi : VMatch :=
  { score := some (9 / 10),
    metadata := some { chunkText := some (.pstr "alpha gamma".toList),
                       citationCount := some (.pint 0) } }

/-- The lower-scoring concrete match of the C4 instance: raw score 0.1,
chunk text sharing one of the two query tokens, citation count absent. -/
def exMatchLo : VMatch :=
  { score := some (1 / 10),
    metadata := some { chunkText := some (.pstr "beta delta".toList) } }

/-- Claim C4 (confirmed; float arithmetic modelled exactly over `ℚ`):
`hybrid_rerank_matches` gives every returned match
`hybridScore = 0.70 * semantic + 0.25 * lexical + 0.05 * citation`, where
`semantic` is the raw score min-max normalized over the candidate set with a
zero-span epsilon floor of 1e-8, `lexical` is the token-overlap ratio of
`lexical_overlap_score` (lower-cased alphanumeric tokens of length ≥ 3), and
`citation` is `min(citationCount, 5000)/5000`; for raw scores 0.9 and 0.1
with lexical overlap 0.5 on both and citation count 0, the hybrid scores are
exactly 0.825 and 0.125. -/
theorem hybrid_rerank_score_formula :
    (∀ (q : List Char) (ms : List VMatch) (k : ℕ), ∀ m' ∈ hybrid_rerank_matches q ms k,
      ∃ m ∈ ms, m'.hybridScore = some (
        (7 / 10) * ((matchScore m - minListQ (ms.map matchScore)) /
            (qmax (maxListQ (ms.map matchScore) - minListQ (ms.map matchScore))
              (1 / 100000000)))
        + (1 / 4) * lexical_overlap_score q (strOrEmpty ((m.metadata.getD {}).chunkText))
        + (1 / 20) * (((imin (as_int (m.metadata.getD {}).citationCount 0) 5000 : ℤ) : ℚ)
            / 5000))) ∧
    hybrid_rerank_matches "alpha beta".toList [exMatchHi, exMatchLo] 2
      = [{ exMatchHi with hybridScore := some (825 / 1000) },
         { exMatchLo with hybridScore := some (125 / 1000) }] := by
  constructor
  · intro q ms k m' hm'
    obtain ⟨m, hm, rfl⟩ := rerank_mem q ms k m' hm'
    exact ⟨m, hm, rfl⟩
  · with_unfolding_all decide

/-- Witness for C4: the formula conjunct applied to the concrete two-match
instance, at the returned top match. -/
theorem hybrid_rerank_score_formula_witness :
    ∃ m ∈ [exMatchHi, exMatchLo],
      ({ exMatchHi with hybridScore := some (825 / 1000) } : VMatch).hybridScore
        = some ((7 / 10) * ((matchScore m
              - minListQ ([exMatchHi, exMatchLo].map matchScore)) /
            (qmax (maxListQ ([exMatchHi, exMatchLo].map matchScore)
              - minListQ ([exMatchHi, exMatchLo].map matchScore)) (1 / 100000000)))
          + (1 / 4) * lexical_overlap_score "alpha beta".toList
              (strOrEmpty ((m.metadata.getD {}).chunkText))
          + (1 / 20) * (((imin (as_int (m.metadata.getD {}).citationCount 0) 5000 : ℤ) : ℚ)
              / 5000)) :=
  (hybrid_rerank_score_formula.1 "alpha beta".toList [exMatchHi, exMatchLo] 2
    { exMatchHi with hybridScore := some (825 / 1000) } (by with_unfolding_all decide))

/-- Claim C10 (confirmed): `hybrid_rerank_matches` does not modify its input.
In this pure model the function is observationally side-effect free by
construction (the Python code builds `dict(match)` copies and never writes to
an input dict); the theorem states the structural content: every returned
match equals some input match with only the `hybridScore` field set, its
`score` and `metadata` fields untouched. -/
theorem hybrid_rerank_no_mutation (q : List Char) (ms : List VMatch) (k : ℕ) :
    ∀ m' ∈ hybrid_rerank_matches q ms k,
      ∃ m ∈ ms, ∃ s : ℚ, m' = { m with hybridScore := some s } ∧
        m'.score = m.score ∧ m'.metadata = m.metadata := by
  intro m' hm'
  obtain ⟨m, hm, rfl⟩ := rerank_mem q ms k m' hm'
  exact ⟨m, hm, _, rfl, rfl, rfl⟩

/-- Witness for C10 at the concrete two-match instance. -/
theorem hybrid_rerank_no_mutation_witness :
    ∃ m ∈ [exMatchHi, exMatchLo], ∃ s : ℚ,
      ({ exMatchLo with hybridScore := some (125 / 1000) } : VMatch)
          = { m with hybridScore := some s } ∧
        ({ exMatchLo with hybridScore := some (125 / 1000) } : VMatch).score = m.score ∧
        ({ exMatchLo with hybridScore := some (125 / 1000) } : VMatch).metadata
          = m.metadata :=
  hybrid_rerank_no_mutation "alpha beta".toList [exMatchHi, exMatchLo] 2
    { exMatchLo with hybridScore := some (125 / 1000) } (by with_unfolding_all decide)

/-! ### Claim C8: dispatcher contract -/

lemma handlerDispatch_status (ev : Event) (o : HandlerOracle) (c : ℕ) (b : RespBody)
    (h : handlerDispatch ev o = .ok (c, b)) : c = 200 ∨ c = 400 := by
  unfold handlerDispatch at h
  rcases hp : parse_event_body ev with b' | _ <;> rw [hp] at h
  · unfold handle_ask at h
    dsimp only at h
    split at h
    · rcases hr : o.ingestRes with e | s <;> rw [hr] at h <;> simp_all [Except.map]
    · split at h
      · split at h
        · simp_all [Except.map]
        · rcases hr : o.askRes with e | s <;> rw [hr] at h <;> simp_all [Except.map]
      · split at h
        · rcases hr : o.insightsRes with e | s <;> rw [hr] at h <;> simp_all [Except.map]
        · split at h
          · rcases hr : o.gapsRes with e | s <;> rw [hr] at h <;> simp_all [Except.map]
          · simp_all [pure, Except.pure]
  · simp [throw, throwThe, MonadExceptOf.throw] at h

/-- Claim C8 (confirmed): `lambda_handler` answers every `OPTIONS` request
with status 200 unconditionally; an `ask` request (explicit or by default)
with a missing or empty question returns 400 immediately with the
`question is required` message and no retry; an action outside
ingest/ask/insights/gaps returns 400; a non-`ValueError` exception raised by
a handler is caught and surfaced as status 500 carrying the exception text;
and every response has status 200, 400 or 500 — never an uncaught crash. -/
theorem lambda_handler_contract :
    (∀ (ev : Event) (o : HandlerOracle), ev.httpMethod = some "OPTIONS".toList →
      (lambda_handler ev o).statusCode = 200) ∧
    (∀ (o : HandlerOracle) (act q : Option PyV),
      (act = none ∨ act = some (.pstr "ask".toList)) →
      clean_text (strOrEmpty q) = [] →
      lambda_handler { httpMethod := none, body := .dictB { action := act, question := q } } o
        = ⟨400, .errorMsg "question is required".toList⟩) ∧
    (∀ (o : HandlerOracle) (act q : Option PyV),
      pyLower (clean_text (strOrDefault act "ask".toList)) ∉
        (["ingest".toList, "ask".toList, "insights".toList, "gaps".toList] :
          List (List Char)) →
      lambda_handler { httpMethod := none, body := .dictB { action := act, question := q } } o
        = ⟨400, .errorMsg
            "Invalid action. Use \x27ingest\x27, \x27ask\x27, \x27insights\x27, or \x27gaps\x27.".toList⟩) ∧
    (∀ (ev : Event) (o : HandlerOracle) (m : List Char),
      ¬ pyUpper (strOrEmpty (ev.httpMethod.map .pstr)) = "OPTIONS".toList →
      handlerDispatch ev o = .error (.runtimeError m) →
      lambda_handler ev o = ⟨500, .errorMsg ("Internal server error: ".toList ++ m)⟩) ∧
    (∀ (ev : Event) (o : HandlerOracle),
      (lambda_handler ev o).statusCode = 200 ∨ (lambda_handler ev o).statusCode = 400 ∨
        (lambda_handler ev o).statusCode = 500) := by
  refine ⟨?_, ?_, ?_, ?_, ?_⟩
  · intro ev o h
    unfold lambda_handler
    rw [h, if_pos (by decide)]
  · intro o act q hact hq
    have hdisp : handlerDispatch
        { httpMethod := none, body := .dictB { action := act, question := q } } o
        = .error (.valueError "question is required".toList) := by
      unfold handlerDispatch parse_event_body
      dsimp only
      have haction : pyLower (clean_text (strOrDefault act "ask".toList)) = "ask".toList := by
        rcases hact with h | h <;> subst h <;> decide
      rw [haction]
      rw [if_neg (by decide), if_pos rfl]
      unfold handle_ask
      rw [if_pos hq]
      rfl
    unfold lambda_handler
    dsimp only
    rw [if_neg (by decide), hdisp]
  · intro o act q hact
    simp only [List.mem_cons, List.mem_singleton, not_or] at hact
    obtain ⟨h1, h2, h3, h4⟩ := hact
    have hdisp : handlerDispatch
        { httpMethod := none, body := .dictB { action := act, question := q } } o
        = .ok (400, .errorMsg
            "Invalid action. Use \x27ingest\x27, \x27ask\x27, \x27insights\x27, or \x27gaps\x27.".toList) := by
      unfold handlerDispatch parse_event_body
      dsimp only
      rw [if_neg h1, if_neg h2, if_neg h3, if_neg (by simpa using h4)]
      rfl
    unfold lambda_handler
    dsimp only
    rw [if_neg (by decide), hdisp]
  · intro ev o m hopt hdisp
    unfold lambda_handler
    rw [if_neg hopt, hdisp]
  · intro ev o
    unfold lambda_handler
    split
    · exact Or.inl rfl
    · rcases hd : handlerDispatch ev o with e | p
      · rcases e with m | m | m <;> simp [hd] <;> omega
      · rcases p with ⟨c, b⟩
        rcases handlerDispatch_status ev o c b hd with h | h <;> simp [hd, h]

/-- Witness for C8: the `OPTIONS` clause, the empty-question clause with a
whitespace question, the invalid-action clause, and the 500 clause for a
handler raising `RuntimeError("boom")` on a gaps request, all at concrete
events. -/
theorem lambda_handler_contract_witness :
    (lambda_handler { httpMethod := some "OPTIONS".toList } {}).statusCode = 200 ∧
    lambda_handler
        { httpMethod := none
          body := .dictB { action := none, question := some (.pstr "  ".toList) } } {}
      = ⟨400, .errorMsg "question is required".toList⟩ ∧
    lambda_handler
        { httpMethod := none
          body := .dictB { action := some (.pstr "Frobnicate".toList), question := none } } {}
      = ⟨400, .errorMsg
          "Invalid action. Use \x27ingest\x27, \x27ask\x27, \x27insights\x27, or \x27gaps\x27.".toList⟩ ∧
    lambda_handler
        { httpMethod := none
          body := .dictB { action := some (.pstr "gaps".toList), question := none } }
        { gapsRes := .error (.runtimeError "boom".toList) }
      = ⟨500, .errorMsg ("Internal server error: ".toList ++ "boom".toList)⟩ := by
  refine ⟨?_, ?_, ?_, ?_⟩
  · exact lambda_handler_contract.1 { httpMethod := some "OPTIONS".toList } {} rfl
  · exact lambda_handler_contract.2.1 {} none (some (.pstr "  ".toList)) (Or.inl rfl)
      (by decide)
  · exact lambda_handler_contract.2.2.1 {} (some (.pstr "Frobnicate".toList)) none
      (by decide)
  · exact lambda_handler_contract.2.2.2.1
      { httpMethod := none
        body := .dictB { action := some (.pstr "gaps".toList), question := none } }
      { gapsRes := .error (.runtimeError "boom".toList) } "boom".toList
      (by decide) (by decide)

/-! ### Claim C7: normalize_paper totality -/

/-- `normalize_paper` always produces a non-empty `paperId` when it succeeds
(either the cleaned raw id, or `"paper_"` followed by a hash prefix).  This
also justifies eliding the dead `hashlib.sha1(json.dumps(...))` fallback in
`key_for`. -/
lemma normalizePaperId_ne_nil (raw : RawPaper) (title doi : List Char) :
    normalizePaperId raw title doi ≠ [] := by
  unfold normalizePaperId
  dsimp only
  split
  · simp
  · assumption

lemma normalize_paper_paperId_ne_nil (raw : RawPaper) (p : Paper)
    (h : normalize_paper raw = .ok p) : p.paperId ≠ [] := by
  unfold normalize_paper at h
  simp only [bind, Except.bind] at h
  split at h
  · rcases hI : pyInt (raw.citationCount.getD (PyV.pint 0)) with e | n <;> rw [hI] at h
    · simp at h
    · simp only [pure, Except.pure, Except.ok.injEq] at h
      subst h
      exact normalizePaperId_ne_nil raw _ _
  · simp only [pure, Except.pure, Except.ok.injEq] at h
    subst h
    exact normalizePaperId_ne_nil raw _ _

/-- The raw record exhibiting the C7 failure: `citationCount` is a truthy
non-numeric string, so `int(raw.get("citationCount", 0) or 0)` raises. -/
def badCitationRaw : RawPaper :=
  { paperId := some (.pstr "p1".toList)
    title := some (.pstr "Good Title".toList)
    citationCount := some (.pstr "many".toList) }

/-- Claim C7 (code_bug): the spec says `normalize_paper` never raises
("No error condition — always succeeds with best-effort defaults"), but the
bare `int(raw.get("citationCount", 0) or 0)` at line 138 raises `ValueError`
on a record whose `citationCount` is a truthy non-numeric string; the
repository provides `as_int` for exactly this purpose and uses it on the same
field elsewhere (`paper_ingest_priority`, line 523), so the spec reflects the
intent and the bare `int` is the slip. -/
theorem normalize_paper_raises_on_bad_citation :
    normalize_paper badCitationRaw
      = .error (.valueError ("invalid literal for int() with base 10: ".toList
          ++ "many".toList)) := by
  decide

/-! ### Claim C3: citation numbering -/

lemma lookupAssoc_append {α : Type} (k : List Char) (l1 l2 : List (List Char × α)) :
    lookupAssoc k (l1 ++ l2) =
      match lookupAssoc k l1 with
      | some v => some v
      | none => lookupAssoc k l2 := by
  induction l1 with
  | nil => simp [lookupAssoc]
  | cons p rest ih =>
    rcases p with ⟨k', v'⟩
    by_cases hk : k' = k
    · simp [lookupAssoc, hk]
    · simp only [List.cons_append, lookupAssoc, if_neg hk]
      exact ih

/-- The reference list accumulates citation numbers 1, 2, 3, ... in order of
first appearance. -/
lemma buildRefsLoop_numbers (style : List Char) :
    ∀ (ms : List VMatch) (refs : List Reference) (p2c : List (List Char × ℕ)),
      refs.map Reference.citationNumber = List.range' 1 refs.length →
      (buildRefsLoop style ms refs p2c).1.map Reference.citationNumber
        = List.range' 1 (buildRefsLoop style ms refs p2c).1.length := by
  intro ms
  induction ms with
  | nil => intro refs p2c h; simpa [buildRefsLoop]
  | cons m rest ih =>
    intro refs p2c h
    unfold buildRefsLoop
    dsimp only
    rcases hl : lookupAssoc (paper_key (m.metadata.getD {})) p2c with _ | n
    · apply ih
      rw [List.map_append, h]
      simp [List.range'_concat]
      omega
    · exact ih refs p2c h

/-- Every value in `paper_to_citation` stays within `[1, |references|]`. -/
lemma buildRefsLoop_bounds (style : List Char) :
    ∀ (ms : List VMatch) (refs : List Reference) (p2c : List (List Char × ℕ)),
      (∀ k n, lookupAssoc k p2c = some n → 1 ≤ n ∧ n ≤ refs.length) →
      ∀ k n, lookupAssoc k (buildRefsLoop style ms refs p2c).2 = some n →
        1 ≤ n ∧ n ≤ (buildRefsLoop style ms refs p2c).1.length := by
  intro ms
  induction ms with
  | nil =>
    intro refs p2c h k n hk
    simp only [buildRefsLoop] at hk ⊢
    exact h k n hk
  | cons m rest ih =>
    intro refs p2c h
    unfold buildRefsLoop
    dsimp only
    rcases hl : lookupAssoc (paper_key (m.metadata.getD {})) p2c with _ | v
    · apply ih
      intro k n hk
      rw [lookupAssoc_append] at hk
      rcases hcase : lookupAssoc k p2c with _ | w
      · rw [hcase] at hk
        dsimp only at hk
        simp only [lookupAssoc] at hk
        split at hk
        · simp only [Option.some.injEq] at hk
          subst hk
          simp
        · simp at hk
      · rw [hcase] at hk
        dsimp only at hk
        have hb := h k w hcase
        simp only [Option.some.injEq] at hk
        constructor
        · omega
        · simp only [List.length_append, List.length_singleton]
          omega
    · exact ih refs p2c h

/-- Once a key is present in `paper_to_citation` it keeps its number. -/
lemma buildRefsLoop_stable (style : List Char) :
    ∀ (ms : List VMatch) (refs : List Reference) (p2c : List (List Char × ℕ))
      (k : List Char) (n : ℕ), lookupAssoc k p2c = some n →
      lookupAssoc k (buildRefsLoop style ms refs p2c).2 = some n := by
  intro ms
  induction ms with
  | nil => intro refs p2c k n h; simpa [buildRefsLoop]
  | cons m rest ih =>
    intro refs p2c k n h
    unfold buildRefsLoop
    dsimp only
    rcases hl : lookupAssoc (paper_key (m.metadata.getD {})) p2c with _ | v
    · apply ih
      rw [lookupAssoc_append, h]
    · exact ih refs p2c k n h

/-- Every processed match ends with its paper key mapped to a citation
number. -/
lemma buildRefsLoop_covers (style : List Char) :
    ∀ (ms : List VMatch) (refs : List Reference) (p2c : List (List Char × ℕ)),
      ∀ m ∈ ms, ∃ n, lookupAssoc (paper_key (m.metadata.getD {}))
        (buildRefsLoop style ms refs p2c).2 = some n := by
  intro ms
  induction ms with
  | nil => intro refs p2c m hm; simp at hm
  | cons m0 rest ih =>
    intro refs p2c m hm
    rcases List.mem_cons.1 hm with rfl | hm'
    · unfold buildRefsLoop
      dsimp only
      rcases hl : lookupAssoc (paper_key (m.metadata.getD {})) p2c with _ | v
      · refine ⟨refs.length + 1, ?_⟩
        apply buildRefsLoop_stable
        rw [lookupAssoc_append, hl]
        simp [lookupAssoc]
      · exact ⟨v, buildRefsLoop_stable style rest _ _ _ _ hl⟩
    · unfold buildRefsLoop
      dsimp only
      rcases hl : lookupAssoc (paper_key (m0.metadata.getD {})) p2c with _ | v
      · exact ih _ _ m hm'
      · exact ih refs p2c m hm'

/-- First match of the C3 counterexample: paperId `a`, DOI `10.1/x`. -/
def dupDoiM1 : VMatch :=
  { metadata := some { paperId := some (.pstr "a".toList),
                       doi := some (.pstr "10.1/x".toList) } }

/-- Second match of the C3 counterexample: paperId `b`, same DOI `10.1/x`. -/
def dupDoiM2 : VMatch :=
  { metadata := some { paperId := some (.pstr "b".toList),
                       doi := some (.pstr "10.1/x".toList) } }

/-- Counterexample to claim C3 as stated: two matches that share the DOI
`10.1/x` but carry distinct `paperId`s receive the distinct citation numbers
1 and 2, because `_paper_key` prefers `id:<paperId>` over `doi:<doi>`. -/
theorem build_references_same_doi_distinct_numbers :
    (dupDoiM1.metadata.getD {}).doi = (dupDoiM2.metadata.getD {}).doi ∧
    ((build_references [dupDoiM1, dupDoiM2] "apa".toList).1.map
        Reference.citationNumber) = [1, 2] := by
  constructor
  · rfl
  · decide

/-- Claim C3, amended (corrected): `build_references` assigns 1-based
citation numbers in strictly increasing order of first appearance (the
reference list's numbers are exactly 1, 2, ..., n), every match's paper key
is mapped to a number in `[1, n]`, two matches with the same paper key —
in particular two matches sharing a DOI **when neither carries a paperId**
(the key chain is `id:` then `doi:` then `title:`) — resolve to the same
citation number, and numbers are unique per paper key within one response.
Matches that share a DOI but have different paperIds get different numbers
(see the counterexample), which is the only part of the original claim that
fails. -/
theorem build_references_numbering :
    (∀ (ms : List VMatch) (style : List Char),
      (build_references ms style).1.map Reference.citationNumber
        = List.range' 1 (build_references ms style).1.length) ∧
    (∀ (ms : List VMatch) (style : List Char), ∀ m ∈ ms,
      ∃ n, lookupAssoc (paper_key (m.metadata.getD {})) (build_references ms style).2
          = some n
        ∧ 1 ≤ n ∧ n ≤ (build_references ms style).1.length) ∧
    (∀ (ms : List VMatch) (style : List Char), ∀ m ∈ ms, ∀ m' ∈ ms,
      paper_key (m.metadata.getD {}) = paper_key (m'.metadata.getD {}) →
      lookupAssoc (paper_key (m.metadata.getD {})) (build_references ms style).2
        = lookupAssoc (paper_key (m'.metadata.getD {})) (build_references ms style).2) ∧
    (∀ me me' : Meta,
      clean_text (strOrEmpty me.paperId) = [] → clean_text (strOrEmpty me'.paperId) = [] →
      pyLower (clean_text (strOrEmpty me.doi)) = pyLower (clean_text (strOrEmpty me'.doi)) →
      pyLower (clean_text (strOrEmpty me.doi)) ≠ [] →
      paper_key me = paper_key me') := by
  refine ⟨?_, ?_, ?_, ?_⟩
  · intro ms style
    exact buildRefsLoop_numbers style ms [] [] (by simp)
  · intro ms style m hm
    obtain ⟨n, hn⟩ := buildRefsLoop_covers style ms [] [] m hm
    refine ⟨n, hn, ?_⟩
    exact buildRefsLoop_bounds style ms [] [] (by simp [lookupAssoc]) _ n hn
  · intro ms style m _ m' _ hkey
    rw [hkey]
  · intro me me' hp hp' hdoi hne
    have hne' : pyLower (clean_text (strOrEmpty me'.doi)) ≠ [] := by
      rw [← hdoi]; exact hne
    simp [paper_key, hp, hp', hne, hne', hdoi]

/-- Witness for C3 (amended): the numbering theorem applied to the
counterexample pair — both matches resolve, numbers lie in `[1, 2]`, and the
reference numbers are exactly `[1, 2]`. -/
theorem build_references_numbering_witness :
    (build_references [dupDoiM1, dupDoiM2] "apa".toList).1.map Reference.citationNumber
      = List.range' 1 (build_references [dupDoiM1, dupDoiM2] "apa".toList).1.length ∧
    ∃ n, lookupAssoc (paper_key (dupDoiM1.metadata.getD {}))
        (build_references [dupDoiM1, dupDoiM2] "apa".toList).2 = some n
      ∧ 1 ≤ n ∧ n ≤ (build_references [dupDoiM1, dupDoiM2] "apa".toList).1.length :=
  ⟨build_references_numbering.1 [dupDoiM1, dupDoiM2] "apa".toList,
   build_references_numbering.2.1 [dupDoiM1, dupDoiM2] "apa".toList dupDoiM1 (by simp)⟩

/-! ### Claim C2: merge key sets -/

lemma updAssoc_keys {α : Type} (k : List Char) (v : α) (l : List (List Char × α)) :
    (updAssoc k v l).map Prod.fst = l.map Prod.fst := by
  induction l with
  | nil => rfl
  | cons p rest ih =>
    rcases p with ⟨k', v'⟩
    by_cases hk : k' = k <;> simp [updAssoc, hk, ih]

lemma updAssoc_mem {α : Type} (k : List Char) (v : α) (l : List (List Char × α))
    (kv : List Char × α) (h : kv ∈ updAssoc k v l) : kv = (k, v) ∨ kv ∈ l := by
  induction l with
  | nil => simp [updAssoc] at h
  | cons p rest ih =>
    rcases p with ⟨k', v'⟩
    by_cases hk : k' = k
    · subst hk
      simp only [updAssoc, if_pos rfl] at h
      rcases List.mem_cons.1 h with h1 | h2
      · exact Or.inl (by simpa using h1)
      · exact Or.inr (List.mem_cons_of_mem _ h2)
    · simp only [updAssoc, if_neg hk] at h
      rcases List.mem_cons.1 h with h1 | h2
      · exact Or.inr (by simp [h1])
      · rcases ih h2 with h3 | h4
        · exact Or.inl h3
        · exact Or.inr (List.mem_cons_of_mem _ h4)

lemma lookupAssoc_mem {α : Type} (k : List Char) (l : List (List Char × α)) (v : α)
    (h : lookupAssoc k l = some v) : (k, v) ∈ l := by
  induction l with
  | nil => simp [lookupAssoc] at h
  | cons p rest ih =>
    rcases p with ⟨k', v'⟩
    simp only [lookupAssoc] at h
    split at h
    · rename_i hk
      simp only [Option.some.injEq] at h
      subst h
      subst hk
      simp
    · exact List.mem_cons_of_mem _ (ih h)

lemma lookupAssoc_none_iff {α : Type} (k : List Char) (l : List (List Char × α)) :
    lookupAssoc k l = none ↔ k ∉ l.map Prod.fst := by
  induction l with
  | nil => simp [lookupAssoc]
  | cons p rest ih =>
    rcases p with ⟨k', v'⟩
    simp only [lookupAssoc, List.map_cons, List.mem_cons]
    split
    · rename_i hk
      subst hk
      constructor
      · intro h
        exact Option.noConfusion h
      · intro h
        exact absurd (Or.inl rfl) h
    · rename_i hk
      rw [ih]
      constructor
      · intro h hc
        rcases hc with hc | hc
        · exact hk hc.symm
        · exact h hc
      · intro h hc
        exact h (Or.inr hc)

/-- `key_for` reads only the doi (cleaned and lower-cased), title and
paperId. -/
lemma key_for_congr (a b : Paper)
    (hdoi : pyLower (clean_text a.doi) = pyLower (clean_text b.doi))
    (ht : a.title = b.title) (hp : a.paperId = b.paperId) :
    key_for a = key_for b := by
  unfold key_for
  rw [hdoi, ht, hp]

/-- The shape of a key: it starts with `d` (doi), `t` (title) or `i` (id),
matching whether the cleaned doi is empty. -/
lemma key_for_doi_shape (x : Paper) (h : pyLower (clean_text x.doi) ≠ []) :
    ∃ r, key_for x = 'd' :: r := by
  unfold key_for
  rw [if_pos h]
  exact ⟨_, rfl⟩

lemma key_for_nodoi_shape (x : Paper) (h : pyLower (clean_text x.doi) = []) :
    (∃ r, key_for x = 't' :: r) ∨ ∃ r, key_for x = 'i' :: r := by
  unfold key_for
  rw [if_neg (by simp [h])]
  dsimp only
  split
  · exact Or.inl ⟨_, rfl⟩
  · exact Or.inr ⟨_, rfl⟩

lemma key_for_winnerMerge (e p : Paper) : key_for (winnerMerge e p) = key_for p := by
  unfold winnerMerge
  split
  · exact key_for_congr _ _ rfl rfl rfl
  · rfl

lemma key_for_loserBackfill (e p : Paper) (h : key_for e = key_for p) :
    key_for (loserBackfill e p) = key_for e := by
  have hstep : ∀ q : Paper, pyLower (clean_text q.doi) = pyLower (clean_text
      (backfillField e.doi p.doi)) → q.title = e.title → q.paperId = e.paperId →
      key_for q = key_for e := by
    intro q hd ht hp
    by_cases hfire : e.doi = [] ∧ p.doi ≠ []
    · have hbf : backfillField e.doi p.doi = p.doi := by
        unfold backfillField
        rw [if_pos hfire]
      have hpe : pyLower (clean_text p.doi) = [] := by
        by_contra hc
        have he : pyLower (clean_text e.doi) = [] := by rw [hfire.1]; rfl
        obtain ⟨r, hr⟩ := key_for_doi_shape p hc
        rcases key_for_nodoi_shape e he with ⟨r', hr'⟩ | ⟨r', hr'⟩ <;>
          rw [hr, hr'] at h <;> simp at h
      have he : pyLower (clean_text e.doi) = [] := by rw [hfire.1]; rfl
      exact key_for_congr q e (by rw [hd, hbf, hpe, he]) ht hp
    · have hbf : backfillField e.doi p.doi = e.doi := by
        unfold backfillField
        rw [if_neg hfire]
      exact key_for_congr q e (by rw [hd, hbf]) ht hp
  unfold loserBackfill
  dsimp only
  split
  · exact hstep _ rfl rfl rfl
  · exact hstep _ rfl rfl rfl

/-- Inversion of one merge step. -/
lemma mergeStep_ok (sel : List (List Char × Paper)) (raw : RawPaper)
    (sel' : List (List Char × Paper)) (h : mergeStep sel raw = .ok sel') :
    ∃ p, normalize_paper raw = .ok p ∧
      ((∃ existing, lookupAssoc (key_for p) sel = some existing ∧
          sel' = updAssoc (key_for p)
            (if tupleGt (mergeScore p) (mergeScore existing)
             then winnerMerge existing p else loserBackfill existing p) sel) ∨
       (lookupAssoc (key_for p) sel = none ∧ sel' = sel ++ [(key_for p, p)])) := by
  unfold mergeStep at h
  simp only [bind, Except.bind] at h
  rcases hn : normalize_paper raw with e | p <;> rw [hn] at h
  · simp at h
  · refine ⟨p, rfl, ?_⟩
    dsimp only at h
    rcases hl : lookupAssoc (key_for p) sel with _ | existing <;> rw [hl] at h <;>
      dsimp only at h
    · right
      simp only [pure, Except.pure, Except.ok.injEq] at h
      exact ⟨rfl, h.symm⟩
    · left
      refine ⟨existing, rfl, ?_⟩
      split at h <;> rename_i hgt <;>
        simp only [pure, Except.pure, Except.ok.injEq] at h
      · rw [if_pos hgt]
        exact h.symm
      · rw [if_neg hgt]
        exact h.symm

lemma mergeSel_cons (r : RawPaper) (rs : List RawPaper)
    (sel sel' : List (List Char × Paper)) (h : mergeSel (r :: rs) sel = .ok sel') :
    ∃ sel1, mergeStep sel r = .ok sel1 ∧ mergeSel rs sel1 = .ok sel' := by
  unfold mergeSel at h
  simp only [bind, Except.bind] at h
  rcases hs : mergeStep sel r with e | sel1 <;> rw [hs] at h
  · simp at h
  · exact ⟨sel1, rfl, h⟩

/-- Every entry of the selection dict is keyed by the `key_for` of its
value. -/
lemma mergeSel_inv (l : List RawPaper) :
    ∀ (sel sel' : List (List Char × Paper)), mergeSel l sel = .ok sel' →
      (∀ kv ∈ sel, key_for kv.2 = kv.1) → ∀ kv ∈ sel', key_for kv.2 = kv.1 := by
  induction l with
  | nil =>
    intro sel sel' h hinv
    simp only [mergeSel, Except.ok.injEq] at h
    subst h
    exact hinv
  | cons r rs ih =>
    intro sel sel' h hinv
    obtain ⟨sel1, hstep, hrest⟩ := mergeSel_cons r rs sel sel' h
    obtain ⟨p, hn, hcase⟩ := mergeStep_ok sel r sel1 hstep
    apply ih sel1 sel' hrest
    rcases hcase with ⟨existing, hl, hupd⟩ | ⟨hl, happ⟩
    · intro kv hkv
      rw [hupd] at hkv
      rcases updAssoc_mem _ _ _ _ hkv with h1 | h2
      · subst h1
        dsimp only
        have hex : key_for existing = key_for p :=
          hinv (key_for p, existing) (lookupAssoc_mem _ _ _ hl)
        split
        · exact key_for_winnerMerge existing p
        · rw [key_for_loserBackfill existing p hex, hex]
      · exact hinv kv h2
    · intro kv hkv
      rw [happ] at hkv
      rcases List.mem_append.1 hkv with h1 | h2
      · exact hinv kv h1
      · simp only [List.mem_singleton] at h2
        subst h2
        rfl

/-- Key-set characterization of the fold: a key appears in the final dict iff
it was already present or is the merge key of some input record. -/
lemma mergeSel_keys (l : List RawPaper) :
    ∀ (sel sel' : List (List Char × Paper)), mergeSel l sel = .ok sel' →
      ∀ k, k ∈ sel'.map Prod.fst ↔
        (k ∈ sel.map Prod.fst ∨
          ∃ r ∈ l, ∃ p, normalize_paper r = .ok p ∧ key_for p = k) := by
  induction l with
  | nil =>
    intro sel sel' h k
    simp only [mergeSel, Except.ok.injEq] at h
    subst h
    constructor
    · exact Or.inl
    · rintro (hc | ⟨r, hr, -⟩)
      · exact hc
      · exact absurd hr (List.not_mem_nil r)
  | cons r rs ih =>
    intro sel sel' h k
    obtain ⟨sel1, hstep, hrest⟩ := mergeSel_cons r rs sel sel' h
    obtain ⟨p, hn, hcase⟩ := mergeStep_ok sel r sel1 hstep
    have hiff := ih sel1 sel' hrest k
    rcases hcase with ⟨existing, hl, hupd⟩ | ⟨hl, happ⟩
    · have hkeys : sel1.map Prod.fst = sel.map Prod.fst := by
        rw [hupd]
        exact updAssoc_keys _ _ _
      have hkp : key_for p ∈ sel.map Prod.fst := by
        have := lookupAssoc_mem _ _ _ hl
        exact List.mem_map.2 ⟨(key_for p, existing), this, rfl⟩
      rw [hiff, hkeys]
      constructor
      · intro hc
        rcases hc with hc | ⟨r', hr', hex⟩
        · exact Or.inl hc
        · exact Or.inr ⟨r', List.mem_cons_of_mem r hr', hex⟩
      · intro hc
        rcases hc with hc | ⟨r', hr', p', hp', hkey⟩
        · exact Or.inl hc
        · rcases List.mem_cons.1 hr' with rfl | hr''
          · rw [hn] at hp'
            simp only [Except.ok.injEq] at hp'
            subst hp'
            exact Or.inl (hkey ▸ hkp)
          · exact Or.inr ⟨r', hr'', p', hp', hkey⟩
    · have hkeys : sel1.map Prod.fst = sel.map Prod.fst ++ [key_for p] := by
        rw [happ]
        simp
      rw [hiff, hkeys]
      constructor
      · intro hc
        rcases hc with hc | ⟨r', hr', hex⟩
        · rcases List.mem_append.1 hc with h1 | h2
          · exact Or.inl h1
          · simp only [List.mem_singleton] at h2
            exact Or.inr ⟨r, List.mem_cons_self r rs, p, hn, h2.symm⟩
        · exact Or.inr ⟨r', List.mem_cons_of_mem r hr', hex⟩
      · intro hc
        rcases hc with hc | ⟨r', hr', p', hp', hkey⟩
        · exact Or.inl (List.mem_append.2 (Or.inl hc))
        · rcases List.mem_cons.1 hr' with rfl | hr''
          · rw [hn] at hp'
            simp only [Except.ok.injEq] at hp'
            subst hp'
            exact Or.inl (List.mem_append.2 (Or.inr (by simp [hkey])))
          · exact Or.inr ⟨r', hr'', p', hp', hkey⟩

/-- If every input record's key is already present, the fold leaves the key
list unchanged. -/
lemma mergeSel_keys_stable (l : List RawPaper) :
    ∀ (sel sel' : List (List Char × Paper)), mergeSel l sel = .ok sel' →
      (∀ r ∈ l, ∀ p, normalize_paper r = .ok p → key_for p ∈ sel.map Prod.fst) →
      sel'.map Prod.fst = sel.map Prod.fst := by
  induction l with
  | nil =>
    intro sel sel' h _
    simp only [mergeSel, Except.ok.injEq] at h
    subst h
    rfl
  | cons r rs ih =>
    intro sel sel' h hall
    obtain ⟨sel1, hstep, hrest⟩ := mergeSel_cons r rs sel sel' h
    obtain ⟨p, hn, hcase⟩ := mergeStep_ok sel r sel1 hstep
    rcases hcase with ⟨existing, hl, hupd⟩ | ⟨hl, happ⟩
    · have hkeys : sel1.map Prod.fst = sel.map Prod.fst := by
        rw [hupd]
        exact updAssoc_keys _ _ _
      rw [← hkeys]
      apply ih sel1 sel' hrest
      intro r' hr' p' hp'
      rw [hkeys]
      exact hall r' (List.mem_cons_of_mem r hr') p' hp'
    · exact absurd (hall r (List.mem_cons_self r rs) p hn)
        ((lookupAssoc_none_iff _ _).1 hl)

lemma mergeSel_append (l1 l2 : List RawPaper) :
    ∀ sel sel1, mergeSel l1 sel = .ok sel1 →
      mergeSel (l1 ++ l2) sel = mergeSel l2 sel1 := by
  induction l1 with
  | nil =>
    intro sel sel1 h
    simp only [mergeSel, Except.ok.injEq] at h
    subst h
    rfl
  | cons r rs ih =>
    intro sel sel1 h
    obtain ⟨s1, hstep, hrest⟩ := mergeSel_cons r rs sel sel1 h
    show (do mergeSel (rs ++ l2) (← mergeStep sel r)) = mergeSel l2 sel1
    rw [hstep]
    exact ih s1 sel1 hrest

/-- `merge_papers` result in terms of the selection dict: the output papers'
`key_for`s are exactly the dict's keys. -/
lemma merge_papers_keys (l : List RawPaper) (res : List Paper)
    (h : merge_papers l = .ok res) :
    ∃ sel, mergeSel l [] = .ok sel ∧ res = sel.map Prod.snd ∧
      res.map key_for = sel.map Prod.fst := by
  unfold merge_papers at h
  rcases hs : mergeSel l [] with e | sel <;> rw [hs] at h
  · simp [Except.map] at h
  · simp only [Except.map, Except.ok.injEq] at h
    refine ⟨sel, rfl, h.symm, ?_⟩
    have hinv := mergeSel_inv l [] sel hs (by simp)
    rw [← h, List.map_map]
    exact List.map_congr_left (fun kv hkv => hinv kv hkv)

/-- One record of the C2 counterexample: abstract and citations, no URL. -/
def mergeRawX : RawPaper :=
  { paperId := some (.pstr "x".toList)
    doi := some (.pstr "10.1/z".toList)
    abstract := some (.pstr "An abstract".toList)
    citationCount := some (.pint 5) }

/-- The other record: same DOI, no abstract, but a URL. -/
def mergeRawY : RawPaper :=
  { paperId := some (.pstr "y".toList)
    doi := some (.pstr "10.1/z".toList)
    url := some (.pstr "http://u.example".toList) }

/-- The merge result of `[X, Y]`: X wins and its empty `url` is back-filled
from Y. -/
def mergedFwdX : Paper :=
  { paperId := "x".toList, title := [], abstract := "An abstract".toList,
    fullText := [], authors := [], year := none, citationCount := 5,
    publicationDate := [], venue := [], url := "http://u.example".toList,
    pdfUrl := [], doi := "10.1/z".toList, source := "custom".toList,
    allowPdfExtract := true }

/-- The merge result of `[Y, X]`: X arrives second, wins, and `{**Y, **X}`
overwrites Y's `url` with X's empty one. -/
def mergedRevX : Paper :=
  { paperId := "x".toList, title := [], abstract := "An abstract".toList,
    fullText := [], authors := [], year := none, citationCount := 5,
    publicationDate := [], venue := [], url := [],
    pdfUrl := [], doi := "10.1/z".toList, source := "custom".toList,
    allowPdfExtract := true }

/-- Counterexample to claim C2 as stated: merging the same two records in the
two orders yields the same merge key but different winning field values — in
forward order the winner's empty `url` is back-filled from the loser, in
reverse order `{**existing, **p}` lets the winner's empty `url` overwrite the
loser's value. -/
theorem merge_papers_order_dependent :
    merge_papers [mergeRawX, mergeRawY] = .ok [mergedFwdX] ∧
    merge_papers [mergeRawY, mergeRawX] = .ok [mergedRevX] ∧
    key_for mergedFwdX = key_for mergedRevX ∧
    mergedFwdX.url ≠ mergedRevX.url := by
  refine ⟨by decide, by decide, by decide, by decide⟩

/-- Claim C2, amended (corrected): the **merge-key set** of `merge_papers` is
a function of the multiset content only — reversing the input yields the same
set of output merge keys, and merging the doubled input yields exactly the
same key list — but the winning **field values** are order-dependent (see the
counterexample), because a higher-scoring later record overwrites every field
of the incumbent while informational back-fill only runs when the incumbent
wins; on a scoring tie the earlier record also wins rather than a
content-determined one. -/
theorem merge_papers_key_set_invariance :
    (∀ (l : List RawPaper) (res res' : List Paper),
      merge_papers l = .ok res → merge_papers l.reverse = .ok res' →
      ∀ k, k ∈ res.map key_for ↔ k ∈ res'.map key_for) ∧
    (∀ (l : List RawPaper) (res res2 : List Paper),
      merge_papers l = .ok res → merge_papers (l ++ l) = .ok res2 →
      res2.map key_for = res.map key_for) := by
  constructor
  · intro l res res' h h' k
    obtain ⟨sel, hs, _, hkeys⟩ := merge_papers_keys l res h
    obtain ⟨sel', hs', _, hkeys'⟩ := merge_papers_keys l.reverse res' h'
    rw [hkeys, hkeys', mergeSel_keys l [] sel hs k,
      mergeSel_keys l.reverse [] sel' hs' k]
    simp only [List.map_nil, List.mem_nil_iff, false_or, List.mem_reverse]
  · intro l res res2 h h2
    obtain ⟨sel, hs, _, hkeys⟩ := merge_papers_keys l res h
    obtain ⟨sel2, hs2, _, hkeys2⟩ := merge_papers_keys (l ++ l) res2 h2
    rw [hkeys, hkeys2]
    have hs2' : mergeSel l sel = .ok sel2 := by
      rw [← mergeSel_append l l [] sel hs]
      exact hs2
    apply mergeSel_keys_stable l sel sel2 hs2'
    intro r hr p hp
    rw [mergeSel_keys l [] sel hs (key_for p)]
    exact Or.inr ⟨r, hr, p, hp, rfl⟩

/-- Witness for C2 (amended): key-set invariance applied to the concrete
two-record inputs of the counterexample. -/
theorem merge_papers_key_set_invariance_witness :
    ("doi:10.1/z".toList ∈ [mergedFwdX].map key_for ↔
      "doi:10.1/z".toList ∈ [mergedRevX].map key_for) ∧
    [mergedRevX].map key_for = [mergedRevX].map key_for :=
  ⟨merge_papers_key_set_invariance.1 [mergeRawX, mergeRawY] [mergedFwdX] [mergedRevX]
      (by decide) (by decide) "doi:10.1/z".toList,
   merge_papers_key_set_invariance.2 [mergeRawX] [mergedRevX] [mergedRevX]
      (by decide) (by decide)⟩

/-- Whether a skip entry is the non-terminal PDF-extraction notice (the one
recorded at lines 1162-1166 while processing of the paper continues). -/
def isPdfNotice (e : SkipEntry) : Bool := e.reason = skipReasonPdf

/-- Skip entries that terminate a paper (everything except the PDF notice). -/
def terminalSkips (l : List SkipEntry) : ℕ :=
  (l.filter (fun e => !(isPdfNotice e))).length

lemma isPdfNotice_budget (a b : List Char) :
    isPdfNotice ⟨a, b, skipReasonBudget⟩ = false := by
  show decide (skipReasonBudget = skipReasonPdf) = false
  decide

lemma isPdfNotice_pdf (a b : List Char) :
    isPdfNotice ⟨a, b, skipReasonPdf⟩ = true := by
  show decide (skipReasonPdf = skipReasonPdf) = true
  decide

lemma isPdfNotice_noText (a b : List Char) :
    isPdfNotice ⟨a, b, skipReasonNoText⟩ = false := by
  show decide (skipReasonNoText = skipReasonPdf) = false
  decide

lemma isPdfNotice_tooShort (a b : List Char) :
    isPdfNotice ⟨a, b, skipReasonTooShort⟩ = false := by
  show decide (skipReasonTooShort = skipReasonPdf) = false
  decide

lemma isPdfNotice_embed (a b : List Char) :
    isPdfNotice ⟨a, b, skipReasonEmbed⟩ = false := by
  show decide (skipReasonEmbed = skipReasonPdf) = false
  decide

lemma terminalSkips_append (l : List SkipEntry) (e : SkipEntry) :
    terminalSkips (l ++ [e]) = terminalSkips l + (if isPdfNotice e then 0 else 1) := by
  unfold terminalSkips
  rw [List.filter_append, List.length_append]
  cases hpe : isPdfNotice e <;> simp [List.filter, hpe]

lemma terminalSkips_le (l : List SkipEntry) : terminalSkips l ≤ l.length :=
  List.length_filter_le _ _

/-- Past the loop-top budget check, the iteration adds exactly one terminal
outcome (plus possibly the non-terminal PDF notice). -/
lemma ingestTail_account (ep : Bool) (cs ow mw : ℕ) (ms : Option ℚ)
    (st : IngestState) (p : Paper) (orc : PaperOracle) :
    (ingestTail ep cs ow mw ms st p orc).ingested_papers
        + terminalSkips (ingestTail ep cs ow mw ms st p orc).skipped
        + (ingestTail ep cs ow mw ms st p orc).failed.length
      = st.ingested_papers + terminalSkips st.skipped + st.failed.length + 1 := by
  unfold ingestTail
  have hst1 : ∀ st1 : IngestState,
      st1 = (if ingestPdfNotice ep ms p orc then
        { st with skipped := st.skipped ++ [⟨p.paperId, p.title, skipReasonPdf⟩] }
      else st) →
      st1.ingested_papers + terminalSkips st1.skipped + st1.failed.length
        = st.ingested_papers + terminalSkips st.skipped + st.failed.length := by
    intro st1 h1
    cases hpn : ingestPdfNotice ep ms p orc <;> rw [hpn] at h1 <;>
      simp only [if_true, if_false, Bool.false_eq_true, if_neg, ite_true,
        ite_false] at h1 <;> subst h1
    · rfl
    · simp [terminalSkips_append, isPdfNotice_pdf]
  set st1 := (if ingestPdfNotice ep ms p orc then
      { st with skipped := st.skipped ++ [⟨p.paperId, p.title, skipReasonPdf⟩] }
    else st) with hst1def
  have hbase := hst1 st1 hst1def
  rcases hmt : ingestMergedText ep ms p orc with _ | merged <;> dsimp only
  · simp [terminalSkips_append, isPdfNotice_noText]
    omega
  · split
    · simp [terminalSkips_append, isPdfNotice_tooShort]
      omega
    · split
      · simp [terminalSkips_append, isPdfNotice_embed]
        omega
      · rcases orc.embedError with _ | e <;> dsimp only
        · omega
        · simp only [List.length_append, List.length_singleton]
          omega

/-- Each loop iteration adds exactly one terminal outcome: an ingestion, a
terminal skip entry, or a failure entry. -/
lemma ingestStep_account (ep : Bool) (cs ow mw : ℕ) (ms : Option ℚ)
    (st : IngestState) (raw : RawPaper) (orc : PaperOracle) (st2 : IngestState)
    (h : ingestStep ep cs ow mw ms st raw orc = .ok st2) :
    st2.ingested_papers + terminalSkips st2.skipped + st2.failed.length
      = st.ingested_papers + terminalSkips st.skipped + st.failed.length + 1 := by
  unfold ingestStep at h
  simp only [bind, Except.bind] at h
  rcases hn : normalize_paper raw with e | p <;> rw [hn] at h
  · simp at h
  · dsimp only at h
    split at h <;> simp only [pure, Except.pure, Except.ok.injEq] at h <;> subst h
    · simp [terminalSkips_append, isPdfNotice_budget]
      omega
    · exact ingestTail_account ep cs ow mw ms st p orc

lemma ingestLoop_cons (ep : Bool) (cs ow mw : ℕ) (ms : Option ℚ)
    (raw : RawPaper) (orc : PaperOracle) (rest : List (RawPaper × PaperOracle))
    (st st2 : IngestState)
    (h : ingestLoop ep cs ow mw ms ((raw, orc) :: rest) st = .ok st2) :
    ∃ st1, ingestStep ep cs ow mw ms st raw orc = .ok st1 ∧
      ingestLoop ep cs ow mw ms rest st1 = .ok st2 := by
  unfold ingestLoop at h
  simp only [bind, Except.bind] at h
  rcases hs : ingestStep ep cs ow mw ms st raw orc with e | st1 <;> rw [hs] at h
  · simp at h
  · exact ⟨st1, rfl, h⟩

lemma ingestLoop_account (ep : Bool) (cs ow mw : ℕ) (ms : Option ℚ) :
    ∀ (papers : List (RawPaper × PaperOracle)) (st st2 : IngestState),
      ingestLoop ep cs ow mw ms papers st = .ok st2 →
      st2.ingested_papers + terminalSkips st2.skipped + st2.failed.length
        = st.ingested_papers + terminalSkips st.skipped + st.failed.length
          + papers.length := by
  intro papers
  induction papers with
  | nil =>
    intro st st2 h
    simp only [ingestLoop, Except.ok.injEq] at h
    subst h
    simp
  | cons pr rest ih =>
    intro st st2 h
    obtain ⟨raw, orc⟩ := pr
    obtain ⟨st1, hstep, hrest⟩ := ingestLoop_cons ep cs ow mw ms raw orc rest st st2 h
    have h1 := ingestStep_account ep cs ow mw ms st raw orc st1 hstep
    have h2 := ih st1 st2 hrest
    simp only [List.length_cons]
    omega

/-- When the time budget is already exhausted at the top of the iteration,
the step only records a budget-skip entry and sets the timeout flag. -/
lemma ingestStep_budget (ep : Bool) (cs ow mw : ℕ) (m : ℚ) (st : IngestState)
    (raw : RawPaper) (orc : PaperOracle) (p : Paper)
    (hm : m ≠ 0) (hb : Rat.blt orc.tLoop m = false)
    (hn : normalize_paper raw = .ok p) :
    ingestStep ep cs ow mw (some m) st raw orc = .ok
      { st with timed_out := true
                skipped := st.skipped ++ [⟨p.paperId, p.title, skipReasonBudget⟩] } := by
  have hb2 : budgetHit (some m) orc.tLoop (fun x => x) = true := by
    simp [budgetHit, hb, hm]
  unfold ingestStep
  rw [hn]
  dsimp only [bind, Except.bind]
  rw [hb2, if_pos rfl]
  rfl

lemma ingestLoop_all_budget (ep : Bool) (cs ow mw : ℕ) (m : ℚ) (hm : m ≠ 0) :
    ∀ (papers : List (RawPaper × PaperOracle)) (st : IngestState),
      (∀ pr ∈ papers, Rat.blt pr.2.tLoop m = false ∧
        (normalize_paper pr.1).toOption.isSome = true) →
      ∃ st2, ingestLoop ep cs ow mw (some m) papers st = .ok st2 ∧
        st2.ingested_papers = st.ingested_papers ∧
        st2.failed = st.failed ∧
        st2.skipped.length = st.skipped.length + papers.length ∧
        st2.timed_out = (st.timed_out || !papers.isEmpty) := by
  intro papers
  induction papers with
  | nil =>
    intro st _
    exact ⟨st, rfl, rfl, rfl, by simp, by simp⟩
  | cons pr rest ih =>
    intro st hall
    obtain ⟨raw, orc⟩ := pr
    obtain ⟨hb, hok⟩ := hall (raw, orc) (List.mem_cons_self _ _)
    obtain ⟨p, hp⟩ := Option.isSome_iff_exists.1 hok
    have hn : normalize_paper raw = .ok p := by
      rcases hq : normalize_paper raw with e | q <;> rw [hq] at hp
      · simp [Except.toOption] at hp
      · simp only [Except.toOption, Option.some.injEq] at hp
        rw [hp]
    have hstep := ingestStep_budget ep cs ow mw m st raw orc p hm hb hn
    obtain ⟨st2, hloop, hi, hf, hs, ht⟩ :=
      ih { st with timed_out := true
                   skipped := st.skipped ++ [⟨p.paperId, p.title, skipReasonBudget⟩] }
        (fun pr hpr => hall pr (List.mem_cons_of_mem _ hpr))
    refine ⟨st2, ?_, ?_, ?_, ?_, ?_⟩
    · show (ingestStep ep cs ow mw (some m) st raw orc).bind
          (ingestLoop ep cs ow mw (some m) rest) = .ok st2
      rw [hstep]
      exact hloop
    · exact hi
    · exact hf
    · rw [hs]
      show (st.skipped ++ [(⟨p.paperId, p.title, skipReasonBudget⟩ : SkipEntry)]).length
          + rest.length = st.skipped.length + ((raw, orc) :: rest).length
      simp only [List.length_append, List.length_singleton, List.length_cons,
        List.length_nil]
      omega
    · rw [ht]
      simp

/-- The raw record of the C1 counterexample: title, full text and a PDF URL,
all well-formed. -/
def pdfNoticeRaw : RawPaper :=
  { paperId := some (.pstr "p1".toList)
    title := some (.pstr "alpha".toList)
    fullText := some (.pstr "beta gamma".toList)
    pdfUrl := some (.pstr "http://pdf.example".toList) }

/-- Its oracle: the loop-top check passes (0 < 20), the PDF checkpoint hits
the reduced budget (16 >= max(1, 20-4)), the embedding checkpoint still
passes (16 < max(1, 20-3)), and the embedding succeeds. -/
def pdfNoticeOrc : PaperOracle := { tPdf := 16, tEmbed := 16 }

/-- The full ingest result on that paper: both the PDF notice and an
ingestion. -/
def pdfNoticeRes : IngestResult :=
  { ingestedPapers := 1
    ingestedChunks := 2
    skippedPapers := [⟨"p1".toList, "alpha".toList, skipReasonPdf⟩]
    failedPapers := []
    timedOut := false
    timeBudgetSeconds := some 20 }

/-- Counterexample to claim C1 as stated: with a 20-second budget nearly
exhausted at the PDF checkpoint but not at the embedding checkpoint, a single
paper is both recorded in `skippedPapers` (the PDF-extraction notice of lines
1162-1166) and counted in `ingestedPapers`, so ingested + skipped + failed
is 2 for 1 input paper. -/
theorem ingest_papers_pdf_notice_double_entry :
    (ingest_papers [(pdfNoticeRaw, pdfNoticeOrc)] true 2 0 1 (some 20)).map
        (fun res => (res.ingestedPapers, res.skippedPapers.length,
          res.failedPapers.length))
      = .ok (1, 1, 0) ∧
    [(pdfNoticeRaw, pdfNoticeOrc)].length = 1 := by
  constructor
  · with_unfolding_all decide
  · rfl

/-- Claim C1, amended (corrected): every input paper produces exactly one
terminal outcome — ingested, terminally skipped, or failed — so
`ingestedPapers + #(terminal skip entries) + #failedPapers` equals the input
count, where a terminal skip entry is any entry except the non-terminal
PDF-extraction notice; consequently ingested + all skips + failures is at
least the input count (papers never vanish) but can exceed it (see the
counterexample).  The timeout scenario holds as claimed: with a nonzero
budget already exhausted at every loop top, the result has timedOut = true,
one skip entry per paper, and nothing ingested or failed. -/
theorem ingest_papers_accounting :
    (∀ (papers : List (RawPaper × PaperOracle)) (ep : Bool) (cs ow mw : ℕ)
        (ms : Option ℚ) (res : IngestResult),
      ingest_papers papers ep cs ow mw ms = .ok res →
      res.ingestedPapers + terminalSkips res.skippedPapers + res.failedPapers.length
          = papers.length ∧
      papers.length ≤ res.ingestedPapers + res.skippedPapers.length
          + res.failedPapers.length) ∧
    (∀ (papers : List (RawPaper × PaperOracle)) (ep : Bool) (cs ow mw : ℕ) (m : ℚ),
      m ≠ 0 → papers ≠ [] →
      (∀ pr ∈ papers, Rat.blt pr.2.tLoop m = false ∧
        (normalize_paper pr.1).toOption.isSome = true) →
      ∃ res, ingest_papers papers ep cs ow mw (some m) = .ok res ∧
        res.timedOut = true ∧ res.skippedPapers.length = papers.length ∧
        res.ingestedPapers = 0 ∧ res.failedPapers = []) := by
  constructor
  · intro papers ep cs ow mw ms res h
    unfold ingest_papers at h
    rcases hl : ingestLoop ep cs ow mw ms papers {} with e | st <;> rw [hl] at h
    · simp [Except.map] at h
    · simp only [Except.map, Except.ok.injEq] at h
      subst h
      have hacc := ingestLoop_account ep cs ow mw ms papers {} st hl
      have hacc2 : st.ingested_papers + terminalSkips st.skipped + st.failed.length
          = 0 + 0 + 0 + papers.length := hacc
      have hle := terminalSkips_le st.skipped
      constructor
      · show st.ingested_papers + terminalSkips st.skipped + st.failed.length
            = papers.length
        omega
      · show papers.length ≤ st.ingested_papers + st.skipped.length + st.failed.length
        omega
  · intro papers ep cs ow mw m hm hne hall
    obtain ⟨st2, hloop, hi, hf, hs, ht⟩ :=
      ingestLoop_all_budget ep cs ow mw m hm papers {} hall
    refine ⟨⟨st2.ingested_papers, st2.ingested_chunks, st2.skipped, st2.failed,
        st2.timed_out, some m⟩, ?_, ?_, ?_, ?_, ?_⟩
    · unfold ingest_papers
      rw [hloop]
      rfl
    · show st2.timed_out = true
      rw [ht]
      show (false || !papers.isEmpty) = true
      simp only [Bool.false_or]
      cases hpe : papers.isEmpty
      · rfl
      · exact absurd (List.isEmpty_iff.1 hpe) hne
    · show st2.skipped.length = papers.length
      have hs2 : st2.skipped.length = 0 + papers.length := hs
      omega
    · show st2.ingested_papers = 0
      exact hi
    · show st2.failed = []
      exact hf

/-- Witness for C1 (amended): the accounting identity on the counterexample
input, and the all-budget-exhausted scenario on one concrete paper. -/
theorem ingest_papers_accounting_witness :
    (pdfNoticeRes.ingestedPapers + terminalSkips pdfNoticeRes.skippedPapers
        + pdfNoticeRes.failedPapers.length = 1 ∧
      1 ≤ pdfNoticeRes.ingestedPapers + pdfNoticeRes.skippedPapers.length
        + pdfNoticeRes.failedPapers.length) ∧
    (∃ res, ingest_papers [(pdfNoticeRaw, { tLoop := 20 })] true 2 0 1 (some 20)
        = .ok res ∧
      res.timedOut = true ∧ res.skippedPapers.length = 1 ∧
      res.ingestedPapers = 0 ∧ res.failedPapers = []) := by
  constructor
  · exact ingest_papers_accounting.1 [(pdfNoticeRaw, pdfNoticeOrc)] true 2 0 1
      (some 20) pdfNoticeRes (by with_unfolding_all decide)
  · refine ingest_papers_accounting.2 [(pdfNoticeRaw, { tLoop := 20 })] true 2 0 1
      20 (by decide) (by decide) ?_
    intro pr hpr
    simp only [List.mem_singleton] at hpr
    subst hpr
    exact ⟨by with_unfolding_all decide, by with_unfolding_all decide⟩

/-- `SpaceDel s t`: `t` is obtained from `s` by deleting some (possibly no)
space characters. -/
inductive SpaceDel : List Char → List Char → Prop
  | nil : SpaceDel [] []
  | keep (c : Char) {s t : List Char} : SpaceDel s t → SpaceDel (c :: s) (c :: t)
  | drop {s t : List Char} : SpaceDel s t → SpaceDel (' ' :: s) t

lemma SpaceDel.refl (s : List Char) : SpaceDel s s := by
  induction s with
  | nil => exact .nil
  | cons c rest ih => exact .keep c ih

lemma SpaceDel.append {s1 t1 s2 t2 : List Char}
    (h1 : SpaceDel s1 t1) (h2 : SpaceDel s2 t2) :
    SpaceDel (s1 ++ s2) (t1 ++ t2) := by
  induction h1 with
  | nil => exact h2
  | keep c h ih => exact .keep c ih
  | drop h ih => exact .drop ih

lemma SpaceDel.all_spaces (s : List Char) (h : ∀ c ∈ s, c = ' ') :
    SpaceDel s [] := by
  induction s with
  | nil => exact .nil
  | cons c rest ih =>
    have hc : c = ' ' := h c (List.mem_cons_self _ _)
    subst hc
    exact .drop (ih (fun c hc => h c (List.mem_cons_of_mem _ hc)))

lemma SpaceDel.trans {s t u : List Char}
    (h1 : SpaceDel s t) (h2 : SpaceDel t u) : SpaceDel s u := by
  induction h1 generalizing u with
  | nil =>
    cases h2
    exact .nil
  | keep c h ih =>
    cases h2 with
    | keep _ h2x => exact .keep c (ih h2x)
    | drop h2x => exact .drop (ih h2x)
  | drop h ih => exact .drop (ih h2)

lemma mem_collapseAux (b : Bool) (s : List Char) (c : Char)
    (hc : c ∈ collapseAux b s) : c ∈ s ∨ c = ' ' := by
  induction s generalizing b with
  | nil => simp [collapseAux] at hc
  | cons d rest ih =>
    unfold collapseAux at hc
    split at hc
    · split at hc
      · rcases ih true hc with h | h
        · exact Or.inl (List.mem_cons_of_mem _ h)
        · exact Or.inr h
      · rcases List.mem_cons.1 hc with rfl | hc2
        · exact Or.inr rfl
        · rcases ih true hc2 with h | h
          · exact Or.inl (List.mem_cons_of_mem _ h)
          · exact Or.inr h
    · rcases List.mem_cons.1 hc with rfl | hc2
      · exact Or.inl (List.mem_cons_self _ _)
      · rcases ih false hc2 with h | h
        · exact Or.inl (List.mem_cons_of_mem _ h)
        · exact Or.inr h

lemma collapseAux_ws_space (b : Bool) (s : List Char) (c : Char)
    (hc : c ∈ collapseAux b s) (hws : isWS c = true) : c = ' ' := by
  induction s generalizing b with
  | nil => simp [collapseAux] at hc
  | cons d rest ih =>
    unfold collapseAux at hc
    split at hc <;> rename_i hd
    · split at hc
      · exact ih true hc
      · rcases List.mem_cons.1 hc with rfl | hc2
        · rfl
        · exact ih true hc2
    · rcases List.mem_cons.1 hc with rfl | hc2
      · exact absurd hws (by simp [hd])
      · exact ih false hc2

lemma mem_pyStrip (s : List Char) (c : Char) (hc : c ∈ pyStrip s) : c ∈ s := by
  unfold pyStrip dropTrailWS at hc
  rw [List.mem_reverse] at hc
  have h1 := (List.dropWhile_sublist (p := isWS)
    (l := (s.dropWhile isWS).reverse)).subset hc
  rw [List.mem_reverse] at h1
  exact (List.dropWhile_sublist (p := isWS) (l := s)).subset h1

/-- Every character of a cleaned text: whitespace only as a plain space, and
never NUL. -/
lemma clean_text_chars (t : List Char) (c : Char) (hc : c ∈ clean_text t) :
    (isWS c = true → c = ' ') ∧ c ≠ '\x00' := by
  unfold clean_text at hc
  rcases List.mem_filter.1 hc with ⟨hmem, hnul⟩
  have h2 := mem_pyStrip _ _ hmem
  exact ⟨fun hws => collapseAux_ws_space false t c h2 hws, by simpa using hnul⟩

lemma SpaceDel_collapseAux (s : List Char)
    (hws : ∀ c ∈ s, isWS c = true → c = ' ') :
    ∀ b, SpaceDel s (collapseAux b s) := by
  induction s with
  | nil => intro b; exact .nil
  | cons d rest ih =>
    intro b
    have hrest : ∀ c ∈ rest, isWS c = true → c = ' ' :=
      fun c hc => hws c (List.mem_cons_of_mem _ hc)
    unfold collapseAux
    cases hd : isWS d
    · rw [if_neg (by simp [hd])]
      exact .keep d (ih hrest false)
    · have hd2 : d = ' ' := hws d (List.mem_cons_self _ _) hd
      subst hd2
      rw [if_pos (by simp [hd])]
      cases b
      · rw [if_neg (by simp)]
        exact .keep ' ' (ih hrest true)
      · rw [if_pos rfl]
        exact .drop (ih hrest true)

lemma SpaceDel_dropWhileWS (s : List Char)
    (hws : ∀ c ∈ s, isWS c = true → c = ' ') :
    SpaceDel s (s.dropWhile isWS) := by
  induction s with
  | nil => exact .nil
  | cons d rest ih =>
    rw [List.dropWhile_cons]
    cases hd : isWS d
    · rw [if_neg (by simp [hd])]
      exact SpaceDel.refl _
    · have hd2 : d = ' ' := hws d (List.mem_cons_self _ _) hd
      subst hd2
      rw [if_pos (by simp [hd])]
      exact .drop (ih (fun c hc => hws c (List.mem_cons_of_mem _ hc)))

lemma SpaceDel_dropTrailWS (s : List Char)
    (hws : ∀ c ∈ s, isWS c = true → c = ' ') :
    SpaceDel s (dropTrailWS s) := by
  have hsplit : s = dropTrailWS s ++ (s.reverse.takeWhile isWS).reverse := by
    unfold dropTrailWS
    conv_lhs => rw [← s.reverse_reverse,
      ← List.takeWhile_append_dropWhile (p := isWS) (l := s.reverse)]
    rw [List.reverse_append]
  have htail : ∀ c ∈ (s.reverse.takeWhile isWS).reverse, c = ' ' := by
    intro c hc
    rw [List.mem_reverse] at hc
    have hcw : isWS c = true := List.mem_takeWhile_imp hc
    have hcs : c ∈ s := by
      have := (List.takeWhile_sublist (p := isWS) (l := s.reverse)).subset hc
      rwa [List.mem_reverse] at this
    exact hws c hcs hcw
  conv_lhs => rw [hsplit]
  simpa using SpaceDel.append (SpaceDel.refl (dropTrailWS s))
    (SpaceDel.all_spaces _ htail)

lemma SpaceDel_pyStrip (s : List Char)
    (hws : ∀ c ∈ s, isWS c = true → c = ' ') :
    SpaceDel s (pyStrip s) := by
  have h1 := SpaceDel_dropWhileWS s hws
  have hws2 : ∀ c ∈ s.dropWhile isWS, isWS c = true → c = ' ' :=
    fun c hc => hws c ((List.dropWhile_sublist (p := isWS) (l := s)).subset hc)
  exact h1.trans (SpaceDel_dropTrailWS _ hws2)

/-- On texts whose whitespace is already only plain spaces and which are
NUL-free, `clean_text` only deletes spaces. -/
lemma SpaceDel_clean_text (s : List Char)
    (hws : ∀ c ∈ s, isWS c = true → c = ' ')
    (hnul : ∀ c ∈ s, c ≠ '\x00') :
    SpaceDel s (clean_text s) := by
  unfold clean_text
  have hfil : (pyStrip (collapseAux false s)).filter (fun c => c ≠ '\x00')
      = pyStrip (collapseAux false s) := by
    rw [List.filter_eq_self]
    intro c hc
    have h2 := mem_pyStrip _ _ hc
    rcases mem_collapseAux false s c h2 with h | h
    · simpa using hnul c h
    · subst h
      decide
  rw [hfil]
  have hws2 : ∀ c ∈ collapseAux false s, isWS c = true → c = ' ' :=
    fun c hc => collapseAux_ws_space false s c hc
  exact (SpaceDel_collapseAux s hws false).trans (SpaceDel_pyStrip _ hws2)

/-- Marker ordering by start offset. -/
def posLe (a b : ℕ × List Char) : Prop := a.1 ≤ b.1

lemma mem_insertByPos (x y : ℕ × List Char) (l : List (ℕ × List Char)) :
    y ∈ insertByPos x l ↔ y = x ∨ y ∈ l := by
  induction l with
  | nil => simp [insertByPos]
  | cons z zs ih =>
    unfold insertByPos
    split
    · simp only [List.mem_cons, ih]
      tauto
    · simp only [List.mem_cons]

lemma insertByPos_pairwise (x : ℕ × List Char) (l : List (ℕ × List Char))
    (h : List.Pairwise posLe l) : List.Pairwise posLe (insertByPos x l) := by
  induction l with
  | nil => simp [insertByPos, List.pairwise_cons]
  | cons z zs ih =>
    rcases List.pairwise_cons.1 h with ⟨hz, hzs⟩
    unfold insertByPos
    split <;> rename_i hlt
    · refine List.pairwise_cons.2 ⟨fun y hy => ?_, ih hzs⟩
      rcases (mem_insertByPos x y zs).1 hy with rfl | hy2
      · exact le_of_lt hlt
      · exact hz y hy2
    · refine List.pairwise_cons.2 ⟨fun y hy => ?_, h⟩
      rcases List.mem_cons.1 hy with rfl | hy2
      · exact le_of_not_lt hlt
      · exact le_trans (le_of_not_lt hlt) (hz y hy2)

lemma sortByPos_pairwise (l : List (ℕ × List Char)) :
    List.Pairwise posLe (sortByPos l) := by
  induction l with
  | nil => simp [sortByPos]
  | cons x xs ih => exact insertByPos_pairwise x _ ih

lemma dedupByPos_sublist (l : List (ℕ × List Char)) :
    ∀ seen, List.Sublist (dedupByPos l seen) l := by
  induction l with
  | nil => intro seen; simp [dedupByPos]
  | cons m ms ih =>
    intro seen
    unfold dedupByPos
    split
    · exact (ih seen).cons m
    · exact (ih (m.1 :: seen)).cons₂ m

/-- The `(0, body)` marker is inserted in front by the sort. -/
lemma sortByPos_zero_head (hm : List (ℕ × List Char)) :
    sortByPos ((0, "body".toList) :: hm)
      = (0, "body".toList) :: sortByPos hm := by
  show insertByPos _ (sortByPos hm) = _
  rcases hs : sortByPos hm with _ | ⟨z, zs⟩
  · rfl
  · unfold insertByPos
    rw [if_neg (by simp)]

/-- The section texts of consecutive markers concatenate to a space-deletion
of the cleaned text from the first marker on. -/
lemma sectionsOf_spaceDel (clean : List Char)
    (hws : ∀ c ∈ clean, isWS c = true → c = ' ')
    (hnul : ∀ c ∈ clean, c ≠ '\x00') :
    ∀ (ms : List (ℕ × List Char)) (s0 : ℕ) (lab : List Char),
      List.Pairwise posLe ((s0, lab) :: ms) →
      SpaceDel (clean.drop s0)
        (((sectionsOf clean ((s0, lab) :: ms)).map Sect.text).flatten) := by
  intro ms
  induction ms with
  | nil =>
    intro s0 lab _
    have htake : (clean.drop s0).take (clean.length - s0) = clean.drop s0 := by
      apply List.take_of_length_le
      simp [List.length_drop]
    have hsd : SpaceDel (clean.drop s0) (clean_text (clean.drop s0)) :=
      SpaceDel_clean_text _
        (fun c hc => hws c (List.drop_subset _ _ hc))
        (fun c hc => hnul c (List.drop_subset _ _ hc))
    show SpaceDel (clean.drop s0)
      ((((if clean_text ((clean.drop s0).take (clean.length - s0)) = [] then []
          else [(⟨lab, clean_text ((clean.drop s0).take (clean.length - s0))⟩ : Sect)])
        ++ sectionsOf clean []).map Sect.text).flatten)
    rw [htake]
    by_cases hseg : clean_text (clean.drop s0) = []
    · rw [if_pos hseg]
      show SpaceDel (clean.drop s0) []
      exact hseg ▸ hsd
    · rw [if_neg hseg]
      show SpaceDel (clean.drop s0) (clean_text (clean.drop s0) ++ [])
      simpa using hsd
  | cons m rest ih =>
    intro s0 lab hpw
    obtain ⟨q, qlab⟩ := m
    have hle : s0 ≤ q := List.rel_of_pairwise_cons hpw (List.mem_cons_self _ _)
    have hpw2 : List.Pairwise posLe ((q, qlab) :: rest) := hpw.of_cons
    have hsplit : clean.drop s0 = (clean.drop s0).take (q - s0) ++ clean.drop q := by
      conv_lhs => rw [← List.take_append_drop (q - s0) (clean.drop s0)]
      rw [List.drop_drop]
      congr 2
      omega
    have hsd : SpaceDel ((clean.drop s0).take (q - s0))
        (clean_text ((clean.drop s0).take (q - s0))) :=
      SpaceDel_clean_text _
        (fun c hc => hws c (List.drop_subset _ _ (List.take_subset _ _ hc)))
        (fun c hc => hnul c (List.drop_subset _ _ (List.take_subset _ _ hc)))
    show SpaceDel (clean.drop s0)
      ((((if clean_text ((clean.drop s0).take (q - s0)) = [] then []
          else [(⟨lab, clean_text ((clean.drop s0).take (q - s0))⟩ : Sect)])
        ++ sectionsOf clean ((q, qlab) :: rest)).map Sect.text).flatten)
    rw [List.map_append, List.flatten_append]
    conv_lhs => rw [hsplit]
    apply SpaceDel.append
    · by_cases hseg : clean_text ((clean.drop s0).take (q - s0)) = []
      · rw [if_pos hseg]
        show SpaceDel ((clean.drop s0).take (q - s0)) []
        exact hseg ▸ hsd
      · rw [if_neg hseg]
        show SpaceDel ((clean.drop s0).take (q - s0))
          (clean_text ((clean.drop s0).take (q - s0)) ++ [])
        simpa using hsd
    · exact ih q qlab hpw2

/-- `split_sections` with its local bindings inlined. -/
lemma split_sections_eq (text : List Char) :
    split_sections text =
      if clean_text text = [] then []
      else
        if sectionsOf (clean_text text)
              (dedupByPos (sortByPos
                ((0, "body".toList) :: heading_markers (clean_text text))) []) = []
        then [⟨"body".toList, clean_text text⟩]
        else sectionsOf (clean_text text)
              (dedupByPos (sortByPos
                ((0, "body".toList) :: heading_markers (clean_text text))) []) := rfl

/-- Counterexample to claim C5 as stated: each section's segment is passed
through `clean_text` again, which strips its boundary spaces, so the
concatenation of the returned section texts does not reconstruct the cleaned
source exactly (here it yields a-i-n-... with the space before
"introduction" lost). -/
theorem split_sections_concat_not_exact :
    ((split_sections "a introduction b".toList).map Sect.text).flatten
      ≠ clean_text "a introduction b".toList := by
  decide

/-- Claim C5, amended (corrected): the concatenation of the returned section
texts reconstructs the cleaned source only up to the deletion of some space
characters (each segment is re-cleaned, dropping the spaces at its
boundaries), not exactly; the no-heading clause holds (with no heading marker
the whole cleaned text is one body section), and a text containing
"Introduction" and then "Results" yields sections labeled introduction and
results. -/
theorem split_sections_reconstruction :
    (∀ text : List Char,
      SpaceDel (clean_text text) (((split_sections text).map Sect.text).flatten)) ∧
    (∀ ws : List (List Char), ws ≠ [] → (∀ w ∈ ws, goodWord w) →
      heading_markers (joinSp ws) = [] →
      split_sections (joinSp ws) = [⟨"body".toList, joinSp ws⟩]) ∧
    ("introduction".toList ∈
        (split_sections "alpha Introduction beta Results gamma".toList).map Sect.label ∧
     "results".toList ∈
        (split_sections "alpha Introduction beta Results gamma".toList).map Sect.label) := by
  refine ⟨?_, ?_, by decide, by decide⟩
  · intro text
    rw [split_sections_eq]
    by_cases hc : clean_text text = []
    · rw [if_pos hc, hc]
      simp only [List.map_nil, List.flatten_nil]
      exact .nil
    · rw [if_neg hc]
      have hws := fun c hc2 => (clean_text_chars text c hc2).1
      have hnul := fun c hc2 => (clean_text_chars text c hc2).2
      have hsort := sortByPos_zero_head (heading_markers (clean_text text))
      have hded : dedupByPos (sortByPos
            ((0, "body".toList) :: heading_markers (clean_text text))) []
          = (0, "body".toList)
            :: dedupByPos (sortByPos (heading_markers (clean_text text))) [0] := by
        rw [hsort]
        simp [dedupByPos]
      rw [hded]
      have hpwsorted : List.Pairwise posLe
          ((0, "body".toList) :: sortByPos (heading_markers (clean_text text))) := by
        rw [← hsort]
        exact sortByPos_pairwise _
      have hpw : List.Pairwise posLe
          ((0, "body".toList)
            :: dedupByPos (sortByPos (heading_markers (clean_text text))) [0]) :=
        List.Pairwise.sublist
          ((dedupByPos_sublist _ _).cons₂ (0, "body".toList)) hpwsorted
      by_cases hsec : sectionsOf (clean_text text)
          ((0, "body".toList)
            :: dedupByPos (sortByPos (heading_markers (clean_text text))) [0]) = []
      · rw [if_pos hsec]
        show SpaceDel (clean_text text) (clean_text text ++ [])
        simpa using SpaceDel.refl (clean_text text)
      · rw [if_neg hsec]
        have := sectionsOf_spaceDel (clean_text text) hws hnul
          (dedupByPos (sortByPos (heading_markers (clean_text text))) [0])
          0 "body".toList hpw
        simpa using this
  · intro ws hne hgood hhm
    have hcl : clean_text (joinSp ws) = joinSp ws := clean_text_joinSp ws hne hgood
    have hne2 : joinSp ws ≠ [] := by
      rcases ws with _ | ⟨w, rest⟩
      · exact absurd rfl hne
      · exact joinSp_ne_nil w rest (hgood w (List.mem_cons_self _ _)).1
    rw [split_sections_eq, hcl, hhm, if_neg hne2]
    have hded : dedupByPos (sortByPos [(0, "body".toList)]) [] = [(0, "body".toList)] := by
      simp [sortByPos, insertByPos, dedupByPos]
    rw [hded]
    have hsec : sectionsOf (joinSp ws) [(0, "body".toList)]
        = [⟨"body".toList, joinSp ws⟩] := by
      show (if clean_text (((joinSp ws).drop 0).take ((joinSp ws).length - 0)) = []
          then []
          else [(⟨"body".toList,
            clean_text (((joinSp ws).drop 0).take ((joinSp ws).length - 0))⟩ : Sect)])
        ++ sectionsOf (joinSp ws) [] = [⟨"body".toList, joinSp ws⟩]
      rw [List.drop_zero, Nat.sub_zero, List.take_of_length_le (le_refl _), hcl,
        if_neg hne2]
      rfl
    rw [hsec, if_neg (by simp)]

/-- Witness for C5 (amended): the space-deletion reconstruction on a concrete
text, and the no-heading clause on the two-word text "alpha beta". -/
theorem split_sections_reconstruction_witness :
    SpaceDel (clean_text "alpha Introduction beta".toList)
      (((split_sections "alpha Introduction beta".toList).map Sect.text).flatten) ∧
    split_sections (joinSp ["alpha".toList, "beta".toList])
      = [⟨"body".toList, joinSp ["alpha".toList, "beta".toList]⟩] :=
  ⟨split_sections_reconstruction.1 "alpha Introduction beta".toList,
   split_sections_reconstruction.2.1 ["alpha".toList, "beta".toList]
     (by decide) (by decide) (by decide)⟩

end Rag
